import Mathlib

/-!
Verification of the CV PDF generator (`generate_cv_pdf.py`).

Text is modelled as `List Char`.  Python whitespace is modelled by the ASCII
whitespace set `{' ', '\t', '\n', '\x0b', '\x0c', '\r'}` (the set CPython's
`string.whitespace` / `textwrap`'s whitespace translation table use; exotic
Unicode whitespace is outside the model).  Machine floats are modelled as
exact rationals: every numeric constant in the program is an exact decimal
and no computation in the program comes near a binary-rounding boundary.
-/

namespace CvPdf

/-- The ASCII whitespace set used by CPython's `str.strip`, `str.split` and
`textwrap` (space, tab, newline, vertical tab, form feed, carriage return). -/
def isPyWS (c : Char) : Bool :=
  c = ' ' || c = '\t' || c = '\n' || c = '\x0b' || c = '\x0c' || c = '\r'

/-- Python `str.lstrip()` restricted to the ASCII whitespace set. -/
def pyLstrip (s : List Char) : List Char := s.dropWhile isPyWS

/-- Python `str.rstrip()` restricted to the ASCII whitespace set. -/
def pyRstrip (s : List Char) : List Char := (s.reverse.dropWhile isPyWS).reverse

/-- Python `str.strip()` restricted to the ASCII whitespace set. -/
def pyStrip (s : List Char) : List Char := pyRstrip (pyLstrip s)

/-- Helper for `pyWords`: `cur` is the reversed current word. -/
def wordsAux (cur : List Char) : List Char → List (List Char)
  | [] => if cur = [] then [] else [cur.reverse]
  | c :: t =>
    if isPyWS c then
      if cur = [] then wordsAux [] t else cur.reverse :: wordsAux [] t
    else wordsAux (c :: cur) t

/-- The maximal non-whitespace runs of a string, in order: the word sequence
produced by Python's `str.split()`. -/
def pyWords (s : List Char) : List (List Char) := wordsAux [] s

/-! ## `pdf_escape` (source lines 25–26) and its inverse -/

/-- Python `str.replace` for a single-character pattern: every occurrence of
`old` is replaced by `new`. -/
def replaceChar (old : Char) (new : List Char) (s : List Char) : List Char :=
  s.flatMap fun c => if c = old then new else [c]

/-- `pdf_escape` from the source: first double every backslash, then
backslash-prefix `(`, then backslash-prefix `)`. -/
def pdf_escape (s : List Char) : List Char :=
  replaceChar ')' ['\\', ')'] (replaceChar '(' ['\\', '('] (replaceChar '\\' ['\\', '\\'] s))

/-- Per-character escaping as the spec describes it: backslash-prefix exactly
`\`, `(` and `)`, leave every other character unchanged. -/
def escCharSpec (c : Char) : List Char :=
  if c = '\\' || c = '(' || c = ')' then ['\\', c] else [c]

/-- Un-escaping: a backslash followed by any character is replaced by that
character; everything else is copied. -/
def pdfUnescape : List Char → List Char
  | [] => []
  | [c] => [c]
  | c :: d :: t => if c = '\\' then d :: pdfUnescape t else c :: pdfUnescape (d :: t)

lemma pdf_escape_cons (c : Char) (s : List Char) :
    pdf_escape (c :: s) = escCharSpec c ++ pdf_escape s := by
  by_cases h1 : c = '\\'
  · subst h1; simp [pdf_escape, replaceChar, escCharSpec]
  · by_cases h2 : c = '('
    · subst h2; simp [pdf_escape, replaceChar, escCharSpec]
    · by_cases h3 : c = ')'
      · subst h3; simp [pdf_escape, replaceChar, escCharSpec]
      · simp [pdf_escape, replaceChar, escCharSpec, h1, h2, h3]

lemma pdf_escape_eq_flatMap (s : List Char) :
    pdf_escape s = s.flatMap escCharSpec := by
  induction s with
  | nil => rfl
  | cons c t ih => rw [pdf_escape_cons, List.flatMap_cons, ih]

lemma pdfUnescape_cons_ne (c : Char) (h : c ≠ '\\') (t : List Char) :
    pdfUnescape (c :: t) = c :: pdfUnescape t := by
  cases t with
  | nil => rfl
  | cons d t' => simp [pdfUnescape, h]

lemma pdfUnescape_escCharSpec (c : Char) (t : List Char) :
    pdfUnescape (escCharSpec c ++ t) = c :: pdfUnescape t := by
  by_cases h1 : c = '\\' || c = '(' || c = ')'
  · simp only [escCharSpec, h1, if_true, List.cons_append, List.nil_append]
    simp [pdfUnescape]
  · simp only [escCharSpec, h1, if_false, List.cons_append, List.nil_append]
    have hc : c ≠ '\\' := by
      intro hh; subst hh; simp at h1
    exact pdfUnescape_cons_ne c hc t

/-- C5 : un-escaping inverts `pdf_escape`, and `pdf_escape` alters nothing
except backslash-prefixing `\`, `(` and `)`. -/
theorem pdf_escape_roundtrip (s : List Char) :
    pdfUnescape (pdf_escape s) = s ∧ pdf_escape s = s.flatMap escCharSpec := by
  refine ⟨?_, pdf_escape_eq_flatMap s⟩
  induction s with
  | nil => rfl
  | cons c t ih =>
    rw [pdf_escape_cons, pdfUnescape_escCharSpec, ih]

/-! ## Model of CPython `textwrap.wrap` with the options the source uses
(`break_long_words=False`, `break_on_hyphens=False`, all other options at
their defaults: `expand_tabs=True`, `tabsize=8`, `replace_whitespace=True`,
`drop_whitespace=True`, empty indents, `max_lines=None`). -/

/-- Python `str.expandtabs(8)`: a tab becomes spaces up to the next column
that is a multiple of 8; newline and carriage return reset the column. -/
def expandTabs : ℕ → List Char → List Char
  | _, [] => []
  | col, c :: t =>
    if c = '\t' then
      List.replicate (8 - col % 8) ' ' ++ expandTabs (col + (8 - col % 8)) t
    else if c = '\n' || c = '\r' then c :: expandTabs 0 t
    else c :: expandTabs (col + 1) t

/-- `TextWrapper._munge_whitespace`: expand tabs, then translate every
whitespace character to a plain space. -/
def mungeWhitespace (s : List Char) : List Char :=
  (expandTabs 0 s).map fun c => if isPyWS c then ' ' else c

/-- A chunk of text: `textwrap` splits the munged text on the regex `(\s+)`,
producing maximal homogeneous runs of whitespace / non-whitespace. -/
abbrev Chunk := List Char

/-- Split into maximal runs of whitespace / non-whitespace characters
(the chunk list `wordsep_simple_re.split` produces, empties removed). -/
def splitRuns : List Char → List Chunk
  | [] => []
  | c :: t =>
    match splitRuns t with
    | [] => [[c]]
    | (d :: ds) :: rs =>
      if isPyWS c = isPyWS d then (c :: d :: ds) :: rs else [c] :: (d :: ds) :: rs
    | [] :: rs => [c] :: rs

/-- `chunk.strip() == ''`: the chunk is entirely whitespace. -/
def isWsChunk (c : Chunk) : Bool := c.all isPyWS

/-- The inner greedy loop of `_wrap_chunks`: take chunks while the
accumulated length stays within the width budget. -/
def takeGreedy (width : ℕ) : ℕ → List Chunk → List Chunk × List Chunk
  | _, [] => ([], [])
  | cur, c :: t =>
    if cur + c.length ≤ width then
      let r := takeGreedy width (cur + c.length) t
      (c :: r.1, r.2)
    else ([], c :: t)

/-- `if cur_line and cur_line[-1].strip() == '': del cur_line[-1]`
(the last chunk is removed when it is all whitespace). -/
def dropLastWs : List Chunk → List Chunk
  | [] => []
  | [c] => if isWsChunk c then [] else [c]
  | c :: d :: t => c :: dropLastWs (d :: t)

/-- `if drop_whitespace and chunks[-1].strip() == '' and lines: del chunks[-1]`. -/
def dropLeadWs (hasLines : Bool) : List Chunk → List Chunk
  | [] => []
  | c :: t => if hasLines && isWsChunk c then t else c :: t

/-- `_handle_long_word` with `break_long_words=False`, applied after the
greedy take (`p.1` is `cur_line`, `p.2` the remaining chunks): a chunk
longer than the width is moved onto the line only when the line is empty. -/
def handleLong (width : ℕ) (p : List Chunk × List Chunk) : List Chunk × List Chunk :=
  match p.2 with
  | c :: t =>
    if width < c.length then
      if p.1 = [] then (p.1 ++ [c], t) else (p.1, c :: t)
    else (p.1, c :: t)
  | [] => (p.1, [])

/-- One iteration of the outer `while chunks` loop of `_wrap_chunks`:
returns the produced line (if any) and the remaining chunks.
Step 1 drops a leading whitespace chunk when a line already exists;
step 2 is the greedy take; step 3 is the long-word handling; step 4 drops
a trailing whitespace chunk; an empty line is not emitted. -/
def wrapOnce (width : ℕ) (hasLines : Bool) (chunks : List Chunk) :
    Option (List Chunk) × List Chunk :=
  let chunks1 := dropLeadWs hasLines chunks
  let s3 := handleLong width (takeGreedy width 0 chunks1)
  let cur2 := dropLastWs s3.1
  (if cur2 = [] then none else some cur2, s3.2)

/-- The outer `while chunks` loop.  The source's loop terminates because
every iteration consumes at least one chunk; the fuel argument (instantiated
with the chunk count) makes that explicit. -/
def wrapChunksGo (width : ℕ) : ℕ → Bool → List Chunk → List (List Chunk)
  | 0, _, _ => []
  | _ + 1, _, [] => []
  | fuel + 1, hasLines, c :: t =>
    let r := wrapOnce width hasLines (c :: t)
    match r.1 with
    | some line => line :: wrapChunksGo width fuel true r.2
    | none => wrapChunksGo width fuel hasLines r.2

/-- `TextWrapper._wrap_chunks` (indents are empty, so a line is just the
concatenation of its chunks). -/
def wrapChunks (width : ℕ) (chunks : List Chunk) : List (List Char) :=
  (wrapChunksGo width chunks.length false chunks).map List.flatten

/-- `TextWrapper._split_chunks`. -/
def splitChunks (text : List Char) : List Chunk := splitRuns (mungeWhitespace text)

/-- `textwrap.wrap(text, width, break_long_words=False, break_on_hyphens=False)`. -/
def pyWrap (text : List Char) (width : ℕ) : List (List Char) :=
  wrapChunks width (splitChunks text)

/-- Python `int()` on a rational: truncation toward zero. -/
def pyInt (q : ℚ) : ℤ := if 0 ≤ q then ⌊q⌋ else ⌈q⌉

/-- The average-character-width factor of `wrap_text`. -/
def charFactor (bold : Bool) : ℚ := if bold then 0.56 else 0.53

/-- The per-line character budget of `wrap_text`:
`max_chars = max(12, int(width / (font_size * char_factor)))`. -/
def maxCharsOf (width fontSize : ℚ) (bold : Bool) : ℕ :=
  (max 12 (pyInt (width / (fontSize * charFactor bold)))).toNat

/-- `wrap_text` from the source (lines 29–34):
empty text yields one empty line, otherwise
`textwrap.wrap(text, width=max_chars, break_long_words=False,
break_on_hyphens=False) or [text]`. -/
def wrap_text (text : List Char) (width fontSize : ℚ) (bold : Bool) : List (List Char) :=
  if text = [] then [[]]
  else
    match pyWrap text (maxCharsOf width fontSize bold) with
    | [] => [text]
    | l => l

/-- Joining a list of lines with single spaces. -/
def joinSp : List (List Char) → List Char
  | [] => []
  | [x] => x
  | x :: y :: t => x ++ ' ' :: joinSp (y :: t)

/-- The non-whitespace chunks of a chunk list, in order. -/
def wordChunks (l : List Chunk) : List Chunk := l.filter fun r => !(isWsChunk r)

/-- Total character length of a chunk list. -/
def sumLen (l : List Chunk) : ℕ := (l.map List.length).sum

/-! ### Lemmas about `wordsAux` -/

lemma wordsAux_ws {c : Char} (h : isPyWS c = true) (cur t) :
    wordsAux cur (c :: t) =
      (if cur = [] then [] else [cur.reverse]) ++ wordsAux [] t := by
  by_cases hc : cur = [] <;> simp [wordsAux, h, hc]

lemma wordsAux_nonws {c : Char} (h : isPyWS c = false) (cur t) :
    wordsAux cur (c :: t) = wordsAux (c :: cur) t := by
  simp [wordsAux, h]

lemma wordsAux_wsrun {w : List Char} (hw : w ≠ []) (hall : ∀ c ∈ w, isPyWS c = true) :
    ∀ cur rest, wordsAux cur (w ++ rest) = wordsAux cur (' ' :: rest) := by
  induction w with
  | nil => exact absurd rfl hw
  | cons c w' ih =>
    intro cur rest
    have hc : isPyWS c = true := hall c (by simp)
    rcases eq_or_ne w' [] with h' | h'
    · subst h'
      rw [List.cons_append, List.nil_append, wordsAux_ws hc,
        wordsAux_ws (show isPyWS ' ' = true from rfl)]
    · have hall' : ∀ c ∈ w', isPyWS c = true := fun d hd => hall d (by simp [hd])
      rw [List.cons_append, wordsAux_ws hc, ih h' hall' [] rest,
        wordsAux_ws (show isPyWS ' ' = true from rfl) [],
        wordsAux_ws (show isPyWS ' ' = true from rfl) cur]
      simp

lemma wordsAux_wordrun {w : List Char} (hall : ∀ c ∈ w, isPyWS c = false) :
    ∀ cur rest, wordsAux cur (w ++ rest) = wordsAux (w.reverse ++ cur) rest := by
  induction w with
  | nil => intro cur rest; simp
  | cons c w' ih =>
    intro cur rest
    have hc : isPyWS c = false := hall c (by simp)
    have hall' : ∀ d ∈ w', isPyWS d = false := fun d hd => hall d (by simp [hd])
    rw [List.cons_append, wordsAux_nonws hc, ih hall' (c :: cur) rest]
    simp

lemma wordsAux_append_space (a : List Char) :
    ∀ cur b, wordsAux cur (a ++ ' ' :: b) = wordsAux cur a ++ wordsAux [] b := by
  induction a with
  | nil =>
    intro cur b
    rw [List.nil_append, wordsAux_ws (show isPyWS ' ' = true from rfl)]
    by_cases hc : cur = [] <;> simp [wordsAux, hc]
  | cons c a' ih =>
    intro cur b
    by_cases hc : isPyWS c = true
    · rw [List.cons_append, wordsAux_ws hc, wordsAux_ws hc, ih [] b]
      by_cases hcur : cur = [] <;> simp [hcur]
    · rw [List.cons_append, wordsAux_nonws (by simpa using hc),
        wordsAux_nonws (by simpa using hc), ih (c :: cur) b]

lemma pyWords_append_space (a b : List Char) :
    pyWords (a ++ ' ' :: b) = pyWords a ++ pyWords b :=
  wordsAux_append_space a [] b

/-! ### Lemmas about `splitRuns` -/

/-- A run: nonempty, all characters of the same whitespace-ness. -/
def HomogRun (r : Chunk) : Prop := ∃ b, r ≠ [] ∧ ∀ c ∈ r, isPyWS c = b

lemma isWsChunk_of_flag {r : Chunk} {b : Bool} (hne : r ≠ [])
    (hall : ∀ c ∈ r, isPyWS c = b) : isWsChunk r = b := by
  cases r with
  | nil => exact absurd rfl hne
  | cons c t =>
    cases b with
    | true => simp only [isWsChunk, List.all_eq_true, decide_eq_true_eq]; exact hall
    | false =>
      have : isPyWS c = false := hall c (by simp)
      simp [isWsChunk, List.all_cons, this]

lemma splitRuns_cons (c : Char) (t : List Char) :
    splitRuns (c :: t) =
      match splitRuns t with
      | [] => [[c]]
      | (d :: ds) :: rs =>
        if isPyWS c = isPyWS d then (c :: d :: ds) :: rs else [c] :: (d :: ds) :: rs
      | [] :: rs => [c] :: rs := rfl

lemma splitRuns_homog (l : List Char) : ∀ r ∈ splitRuns l, HomogRun r := by
  induction l with
  | nil => intro r hr; simp [splitRuns] at hr
  | cons c t ih =>
    intro r hr
    rw [splitRuns_cons] at hr
    rcases h : splitRuns t with _ | ⟨_ | ⟨d, ds⟩, rs⟩
    · rw [h] at hr; simp at hr
      exact ⟨isPyWS c, by simp [hr]⟩
    · rw [h] at hr
      have : HomogRun ([] : Chunk) := ih [] (by rw [h]; simp)
      obtain ⟨b, hne, _⟩ := this
      exact absurd rfl hne
    · rw [h] at hr
      by_cases hw : isPyWS c = isPyWS d
      · simp only [hw, if_true] at hr
        rcases List.mem_cons.1 hr with h1 | h1
        · obtain ⟨b, _, hall⟩ := ih (d :: ds) (by rw [h]; simp)
          refine ⟨b, by simp [h1], ?_⟩
          intro x hx
          rw [h1] at hx
          rcases List.mem_cons.1 hx with h2 | h2
          · rw [h2, hw]; exact hall d (by simp)
          · exact hall x h2
        · exact ih r (by rw [h]; simp [h1])
      · simp only [hw, if_false] at hr
        rcases List.mem_cons.1 hr with h1 | h1
        · exact ⟨isPyWS c, by simp [h1]⟩
        · exact ih r (by rw [h]; exact h1)

lemma splitRuns_flatten (l : List Char) : (splitRuns l).flatten = l := by
  induction l with
  | nil => rfl
  | cons c t ih =>
    rw [splitRuns_cons]
    rcases h : splitRuns t with _ | ⟨_ | ⟨d, ds⟩, rs⟩
    · rw [h] at ih; simp at ih; simp [ih.symm]
    · have : HomogRun ([] : Chunk) := splitRuns_homog t [] (by rw [h]; simp)
      obtain ⟨b, hne, _⟩ := this
      exact absurd rfl hne
    · rw [h] at ih
      by_cases hw : isPyWS c = isPyWS d <;> simp [hw] <;> simpa using ih

lemma splitRuns_alt (l : List Char) :
    List.Chain' (fun a b => isWsChunk a ≠ isWsChunk b) (splitRuns l) := by
  induction l with
  | nil => simp [splitRuns]
  | cons c t ih =>
    rw [splitRuns_cons]
    rcases h : splitRuns t with _ | ⟨_ | ⟨d, ds⟩, rs⟩
    · simp
    · have : HomogRun ([] : Chunk) := splitRuns_homog t [] (by rw [h]; simp)
      obtain ⟨b, hne, _⟩ := this
      exact absurd rfl hne
    · rw [h] at ih
      obtain ⟨b, _, hall⟩ := splitRuns_homog t (d :: ds) (by rw [h]; simp)
      have hflag : isWsChunk (d :: ds) = b := isWsChunk_of_flag (by simp) hall
      by_cases hw : isPyWS c = isPyWS d
      · simp only [hw, if_true]
        have hflag2 : isWsChunk (c :: d :: ds) = b := by
          refine isWsChunk_of_flag (by simp) ?_
          intro x hx
          rcases List.mem_cons.1 hx with h1 | h1
          · rw [h1, hw]; exact hall d (by simp)
          · exact hall x h1
        rcases rs with _ | ⟨r2, rs'⟩
        · simp
        · rw [List.chain'_cons] at ih ⊢
          exact ⟨by rw [hflag2, ← hflag]; exact ih.1, ih.2⟩
      · simp only [hw, if_false]
        rw [List.chain'_cons]
        refine ⟨?_, ih⟩
        have h1 : isWsChunk [c] = isPyWS c := by simp [isWsChunk]
        have h2 : b = isPyWS d := (hall d (by simp)).symm ▸ rfl
        rw [h1, hflag, h2]
        exact fun hh => hw hh

lemma splitRuns_single_run {l : List Char} {b : Bool} (hne : l ≠ [])
    (hall : ∀ c ∈ l, isPyWS c = b) : splitRuns l = [l] := by
  induction l with
  | nil => exact absurd rfl hne
  | cons c t ih =>
    rcases eq_or_ne t [] with h' | h'
    · subst h'; rfl
    · have hallt : ∀ d ∈ t, isPyWS d = b := fun d hd => hall d (by simp [hd])
      rw [splitRuns_cons, ih h' hallt]
      cases t with
      | nil => exact absurd rfl h'
      | cons d ds =>
        have : isPyWS c = isPyWS d := by
          rw [hall c (by simp), hallt d (by simp)]
        simp [this]

/-! ### `mungeWhitespace` preserves the word sequence -/

lemma wordsAux_map_trws (l : List Char) :
    ∀ cur, wordsAux cur (l.map fun c => if isPyWS c then ' ' else c) = wordsAux cur l := by
  induction l with
  | nil => intro cur; rfl
  | cons c t ih =>
    intro cur
    by_cases hc : isPyWS c = true
    · rw [List.map_cons, if_pos hc, wordsAux_ws (by rfl), wordsAux_ws hc, ih]
    · rw [List.map_cons, if_neg (by simpa using hc),
        wordsAux_nonws (by simpa using hc), wordsAux_nonws (by simpa using hc), ih]

lemma wordsAux_expandTabs (l : List Char) :
    ∀ col cur, wordsAux cur (expandTabs col l) = wordsAux cur l := by
  induction l with
  | nil => intro col cur; rfl
  | cons c t ih =>
    intro col cur
    by_cases h1 : c = '\t'
    · subst h1
      rw [show expandTabs col ('\t' :: t) =
          List.replicate (8 - col % 8) ' ' ++ expandTabs (col + (8 - col % 8)) t from rfl]
      have hk : (8 - col % 8) ≠ 0 := by omega
      have hrep : (List.replicate (8 - col % 8) ' ') ≠ ([] : List Char) := by
        simp [List.replicate_eq_nil_iff, hk]
      rw [wordsAux_wsrun hrep (by intro x hx; rw [List.eq_of_mem_replicate hx]; rfl) cur _,
        wordsAux_ws (by rfl), wordsAux_ws (show isPyWS '\t' = true from rfl), ih]
    · by_cases h2 : c = '\n' ∨ c = '\r'
      · have he : expandTabs col (c :: t) = c :: expandTabs 0 t := by
          rcases h2 with h2 | h2 <;> subst h2 <;> rfl
        have hc : isPyWS c = true := by rcases h2 with h2 | h2 <;> subst h2 <;> rfl
        rw [he, wordsAux_ws hc, wordsAux_ws hc, ih]
      · push_neg at h2
        have he : expandTabs col (c :: t) = c :: expandTabs (col + 1) t := by
          show (if c = '\t' then _ else if c = '\n' || c = '\r' then _ else _) = _
          rw [if_neg h1, if_neg (by simp [h2.1, h2.2])]
        rw [he]
        by_cases hc : isPyWS c = true
        · rw [wordsAux_ws hc, wordsAux_ws hc, ih]
        · rw [wordsAux_nonws (by simpa using hc), wordsAux_nonws (by simpa using hc), ih]

lemma pyWords_munge (l : List Char) : pyWords (mungeWhitespace l) = pyWords l := by
  unfold pyWords mungeWhitespace
  rw [wordsAux_map_trws, wordsAux_expandTabs]

/-! ### Words of a flattened run list -/

/-- Alternation: adjacent chunks differ in whitespace-ness. -/
def AltRuns (l : List Chunk) : Prop :=
  List.Chain' (fun a b => isWsChunk a ≠ isWsChunk b) l

/-- A well-formed chunk list: every chunk a homogeneous nonempty run,
adjacent chunks alternating. -/
def GoodChunks (l : List Chunk) : Prop := (∀ r ∈ l, HomogRun r) ∧ AltRuns l

lemma goodChunks_splitRuns (l : List Char) : GoodChunks (splitRuns l) :=
  ⟨splitRuns_homog l, splitRuns_alt l⟩

lemma goodChunks_cons {r : Chunk} {l : List Chunk} (h : GoodChunks (r :: l)) :
    GoodChunks l := by
  refine ⟨fun x hx => h.1 x (by simp [hx]), ?_⟩
  have := h.2
  rw [AltRuns, List.chain'_cons'] at this
  exact this.2

lemma wordsAux_flatten_good (L : List Chunk) (hg : GoodChunks L) :
    wordsAux [] L.flatten = wordChunks L ∧
    (∀ w : List Char, w ≠ [] → (∀ c ∈ w, isPyWS c = false) →
      (∀ r ∈ L.head?, isWsChunk r = true) →
      wordsAux w.reverse L.flatten = w :: wordChunks L) := by
  induction L with
  | nil =>
    refine ⟨rfl, ?_⟩
    intro w hw _ _
    simp [wordsAux, hw, wordChunks]
  | cons r L' ih =>
    obtain ⟨b, hne, hall⟩ := hg.1 r (by simp)
    have hflag : isWsChunk r = b := isWsChunk_of_flag hne hall
    have ih' := ih (goodChunks_cons hg)
    constructor
    · cases b with
      | true =>
        rw [List.flatten_cons, wordsAux_wsrun hne (by intro c hc; rw [hall c hc]) [],
          wordsAux_ws (by rfl)]
        simp only [if_pos rfl, List.nil_append]
        rw [ih'.1]
        simp [wordChunks, List.filter_cons, hflag]
      | false =>
        rw [List.flatten_cons, wordsAux_wordrun (by intro c hc; exact hall c hc) [],
          List.append_nil]
        have hhead : ∀ s ∈ L'.head?, isWsChunk s = true := by
          intro s hs
          cases L' with
          | nil => simp at hs
          | cons s' L'' =>
            have hs' : s' = s := by simpa using hs
            have halt := hg.2
            rw [AltRuns, List.chain'_cons] at halt
            have hne2 := halt.1
            rw [hflag] at hne2
            rw [← hs']
            rcases Bool.eq_false_or_eq_true (isWsChunk s') with h | h
            · exact h
            · exact absurd h.symm hne2
        rw [ih'.2 r (by exact hne) (by intro c hc; exact hall c hc) hhead]
        simp [wordChunks, List.filter_cons, hflag]
    · intro w hw hwall hhead
      have hr : isWsChunk r = true := hhead r (by simp)
      rw [hflag] at hr
      subst hr
      rw [List.flatten_cons, wordsAux_wsrun hne (by intro c hc; rw [hall c hc]) _,
        wordsAux_ws (by rfl)]
      have : w.reverse ≠ [] := by simpa using hw
      rw [if_neg this, List.reverse_reverse]
      rw [ih'.1]
      simp [wordChunks, List.filter_cons, hflag]

lemma pyWords_flatten_good (L : List Chunk) (hg : GoodChunks L) :
    pyWords L.flatten = wordChunks L :=
  (wordsAux_flatten_good L hg).1

lemma pyWords_eq_wordChunks_splitRuns (l : List Char) :
    pyWords l = wordChunks (splitRuns l) := by
  conv_lhs => rw [← splitRuns_flatten l]
  exact pyWords_flatten_good _ (goodChunks_splitRuns l)

/-! ### Lemmas about `takeGreedy` -/

lemma takeGreedy_append (w : ℕ) :
    ∀ l cur, (takeGreedy w cur l).1 ++ (takeGreedy w cur l).2 = l := by
  intro l
  induction l with
  | nil => intro cur; rfl
  | cons c t ih =>
    intro cur
    unfold takeGreedy
    by_cases h : cur + c.length ≤ w
    · simp only [h, if_true]
      rw [List.cons_append, ih (cur + c.length)]
    · simp [h]

lemma takeGreedy_sum (w : ℕ) :
    ∀ l cur, cur + sumLen (takeGreedy w cur l).1 ≤ w ∨ (takeGreedy w cur l).1 = [] := by
  intro l
  induction l with
  | nil => intro cur; right; rfl
  | cons c t ih =>
    intro cur
    unfold takeGreedy
    by_cases h : cur + c.length ≤ w
    · simp only [h, if_true]
      left
      simp only [sumLen, List.map_cons, List.sum_cons]
      rcases ih (cur + c.length) with h2 | h2
      · simp only [sumLen] at h2
        omega
      · rw [h2]
        simp only [List.map_nil, List.sum_nil]
        omega
    · right; simp [h]

lemma takeGreedy_nonempty_of_fits (w : ℕ) (c : Chunk) (t : List Chunk)
    (h : c.length ≤ w) : (takeGreedy w 0 (c :: t)).1 ≠ [] := by
  unfold takeGreedy
  simp [h]

lemma takeGreedy_lens (w cur : ℕ) (l : List Chunk) :
    (takeGreedy w cur l).1.length + (takeGreedy w cur l).2.length = l.length := by
  have := congrArg List.length (takeGreedy_append w l cur)
  simpa using this

/-! ### Lemmas about `wrapOnce` -/

lemma wordChunks_append (a b : List Chunk) :
    wordChunks (a ++ b) = wordChunks a ++ wordChunks b := by
  simp [wordChunks, List.filter_append]

lemma wordChunks_dropLastWs (l : List Chunk) :
    wordChunks (dropLastWs l) = wordChunks l := by
  induction l with
  | nil => rfl
  | cons c t ih =>
    cases t with
    | nil =>
      by_cases h : isWsChunk c <;> simp [dropLastWs, wordChunks, h]
    | cons d t' =>
      show wordChunks (c :: dropLastWs (d :: t')) = wordChunks (c :: d :: t')
      have ih' : List.filter (fun r => !isWsChunk r) (dropLastWs (d :: t'))
          = List.filter (fun r => !isWsChunk r) (d :: t') := ih
      rw [wordChunks, List.filter_cons, wordChunks, List.filter_cons, ih']

lemma wordChunks_dropLeadWs (hl : Bool) (l : List Chunk) :
    wordChunks (dropLeadWs hl l) = wordChunks l := by
  cases l with
  | nil => rfl
  | cons c t =>
    show wordChunks (if (hl && isWsChunk c) = true then t else c :: t) = _
    by_cases h : (hl && isWsChunk c) = true
    · rw [if_pos h]
      have hc : isWsChunk c = true := by
        simp only [Bool.and_eq_true] at h
        exact h.2
      rw [wordChunks, wordChunks, List.filter_cons, hc]
      simp
    · rw [if_neg h]

lemma handleLong_append (w : ℕ) (p : List Chunk × List Chunk) :
    (handleLong w p).1 ++ (handleLong w p).2 = p.1 ++ p.2 := by
  rcases p with ⟨a, _ | ⟨c, t⟩⟩
  · rfl
  · unfold handleLong
    by_cases h1 : w < c.length
    · by_cases h2 : a = [] <;> simp [h1, h2]
    · simp [h1]

lemma handleLong_rest_le (w : ℕ) (p : List Chunk × List Chunk) :
    (handleLong w p).2.length ≤ p.2.length := by
  rcases p with ⟨a, _ | ⟨c, t⟩⟩
  · exact le_refl _
  · unfold handleLong
    by_cases h1 : w < c.length
    · by_cases h2 : a = [] <;> simp [h1, h2]
    · simp [h1]

lemma getD_if_none (cur2 : List Chunk) :
    ((if cur2 = [] then none else some cur2).getD ([] : List Chunk)) = cur2 := by
  by_cases h : cur2 = [] <;> simp [h]

lemma wrapOnce_conserve (w : ℕ) (hl : Bool) (chs : List Chunk) :
    wordChunks ((wrapOnce w hl chs).1.getD []) ++ wordChunks (wrapOnce w hl chs).2
      = wordChunks chs := by
  simp only [wrapOnce]
  rw [getD_if_none, wordChunks_dropLastWs, ← wordChunks_append, handleLong_append,
    takeGreedy_append, wordChunks_dropLeadWs]

/-! Preservation of well-formedness through `wrapOnce`. -/

lemma goodChunks_append {a b : List Chunk} (h : GoodChunks (a ++ b)) :
    GoodChunks a ∧ GoodChunks b := by
  obtain ⟨hm, hc⟩ := h
  rw [AltRuns, List.chain'_append] at hc
  exact ⟨⟨fun r hr => hm r (by simp [hr]), hc.1⟩, ⟨fun r hr => hm r (by simp [hr]), hc.2.1⟩⟩

lemma dropLastWs_subset {x : Chunk} : ∀ {l : List Chunk}, x ∈ dropLastWs l → x ∈ l := by
  intro l
  induction l with
  | nil => intro h; exact absurd h (by simp [dropLastWs])
  | cons c t ih =>
    cases t with
    | nil =>
      intro h
      by_cases hc : isWsChunk c
      · simp [dropLastWs, hc] at h
      · simp [dropLastWs, hc] at h; simp [h]
    | cons d t' =>
      intro h
      rcases List.mem_cons.1 h with h1 | h1
      · simp [h1]
      · exact List.mem_cons.2 (Or.inr (ih h1))

lemma dropLastWs_head_cases (d : Chunk) (t : List Chunk) :
    dropLastWs (d :: t) = [] ∨ ∃ t', dropLastWs (d :: t) = d :: t' ∧ ∀ x ∈ t', x ∈ t := by
  cases t with
  | nil =>
    by_cases h : isWsChunk d
    · left; simp [dropLastWs, h]
    · right; exact ⟨[], by simp [dropLastWs, h]⟩
  | cons e t'' =>
    right
    refine ⟨dropLastWs (e :: t''), rfl, ?_⟩
    intro x hx
    exact dropLastWs_subset hx

lemma goodChunks_dropLastWs {l : List Chunk} (h : GoodChunks l) :
    GoodChunks (dropLastWs l) := by
  induction l with
  | nil => exact h
  | cons c t ih =>
    cases t with
    | nil =>
      by_cases hc : isWsChunk c
      · simp only [dropLastWs, hc, if_true]
        exact ⟨by simp, by simp [AltRuns]⟩
      · simpa [dropLastWs, hc] using h
    | cons d t' =>
      show GoodChunks (c :: dropLastWs (d :: t'))
      have ht : GoodChunks (dropLastWs (d :: t')) := ih (goodChunks_cons h)
      constructor
      · intro r hr
        rcases List.mem_cons.1 hr with h1 | h1
        · exact h.1 r (by simp [h1])
        · exact h.1 r (List.mem_cons.2 (Or.inr (dropLastWs_subset h1)))
      · rw [AltRuns, List.chain'_cons']
        refine ⟨?_, ht.2⟩
        intro y hy
        rcases dropLastWs_head_cases d t' with h1 | ⟨t2, h1, _⟩
        · rw [h1] at hy; simp at hy
        · rw [h1] at hy
          simp only [List.head?_cons, Option.mem_some_iff] at hy
          subst hy
          have halt := h.2
          rw [AltRuns, List.chain'_cons] at halt
          exact halt.1

lemma goodChunks_dropLeadWs (hl : Bool) {l : List Chunk} (h : GoodChunks l) :
    GoodChunks (dropLeadWs hl l) := by
  cases l with
  | nil => exact h
  | cons c t =>
    show GoodChunks (if (hl && isWsChunk c) = true then t else c :: t)
    by_cases hc : (hl && isWsChunk c) = true
    · rw [if_pos hc]; exact goodChunks_cons h
    · rw [if_neg hc]; exact h

lemma goodChunks_handleLong (w : ℕ) (p : List Chunk × List Chunk)
    (h : GoodChunks (p.1 ++ p.2)) :
    GoodChunks (handleLong w p).1 ∧ GoodChunks (handleLong w p).2 := by
  rcases p with ⟨a, _ | ⟨c, t⟩⟩
  · have he : handleLong w (a, ([] : List Chunk)) = (a, []) := rfl
    rw [he]
    have hga : GoodChunks (a ++ []) := h
    refine ⟨(goodChunks_append hga).1, ⟨by simp, by simp [AltRuns]⟩⟩
  · by_cases h1 : w < c.length
    · by_cases h2 : a = []
      · subst h2
        have he : handleLong w (([] : List Chunk), c :: t) = ([c], t) := by
          unfold handleLong
          simp [h1]
        rw [he]
        have hgood : GoodChunks ([c] ++ t) := by simpa using h
        exact goodChunks_append hgood
      · have he : handleLong w (a, c :: t) = (a, c :: t) := by
          unfold handleLong
          simp [h1, h2]
        rw [he]
        exact goodChunks_append h
    · have he : handleLong w (a, c :: t) = (a, c :: t) := by
        unfold handleLong
        simp [h1]
      rw [he]
      exact goodChunks_append h

lemma wrapOnce_good (w : ℕ) (hl : Bool) {chs : List Chunk} (hg : GoodChunks chs) :
    GoodChunks ((wrapOnce w hl chs).1.getD []) ∧ GoodChunks (wrapOnce w hl chs).2 := by
  simp only [wrapOnce]
  rw [getD_if_none]
  have h1 : GoodChunks (dropLeadWs hl chs) := goodChunks_dropLeadWs hl hg
  have h2 : GoodChunks ((takeGreedy w 0 (dropLeadWs hl chs)).1 ++
      (takeGreedy w 0 (dropLeadWs hl chs)).2) := by
    rw [takeGreedy_append]; exact h1
  have h3 := goodChunks_handleLong w _ h2
  exact ⟨goodChunks_dropLastWs h3.1, h3.2⟩

lemma sumLen_dropLastWs (l : List Chunk) : sumLen (dropLastWs l) ≤ sumLen l := by
  induction l with
  | nil => exact le_refl _
  | cons c t ih =>
    cases t with
    | nil =>
      by_cases hc : isWsChunk c <;> simp [dropLastWs, hc, sumLen]
    | cons d t' =>
      show sumLen (c :: dropLastWs (d :: t')) ≤ _
      simp only [sumLen, List.map_cons, List.sum_cons] at *
      omega

lemma wrapOnce_line_shape (w : ℕ) (hl : Bool) (chs : List Chunk) (line : List Chunk)
    (h : (wrapOnce w hl chs).1 = some line) :
    sumLen line ≤ w ∨ ∃ c, line = [c] ∧ isWsChunk c = false ∧ w < c.length := by
  simp only [wrapOnce] at h
  set p := takeGreedy w 0 (dropLeadWs hl chs) with hp
  have hne : dropLastWs (handleLong w p).1 ≠ [] := by
    intro hc; rw [hc] at h; simp at h
  have hline : line = dropLastWs (handleLong w p).1 := by
    rw [if_neg hne] at h
    exact (Option.some_inj.1 h).symm
  have hsum := takeGreedy_sum w (dropLeadWs hl chs) 0
  rw [← hp] at hsum
  simp only [Nat.zero_add] at hsum
  rcases hp2 : p.2 with _ | ⟨c, t⟩
  · -- handleLong leaves p.1 unchanged
    have heq : (handleLong w p).1 = p.1 := by
      unfold handleLong; rw [hp2]
    rw [heq] at hline
    left
    rcases hsum with h1 | h1
    · calc sumLen line ≤ sumLen p.1 := hline ▸ sumLen_dropLastWs p.1
        _ ≤ w := h1
    · rw [hline, h1]
      simp [dropLastWs, sumLen]
  · by_cases hb : w < c.length ∧ p.1 = []
    · have heq : (handleLong w p).1 = p.1 ++ [c] := by
        unfold handleLong; rw [hp2]
        simp only [hb.1, if_true, hb.2, if_pos]
      rw [heq, hb.2, List.nil_append] at hline hne
      have hwc : isWsChunk c = false := by
        by_contra hcc
        have hct : isWsChunk c = true := by
          rcases Bool.eq_false_or_eq_true (isWsChunk c) with h1 | h1
          · exact h1
          · exact absurd h1 hcc
        simp [dropLastWs, hct] at hne
      right
      refine ⟨c, ?_, hwc, hb.1⟩
      rw [hline]; simp [dropLastWs, hwc]
    · have heq : (handleLong w p).1 = p.1 := by
        unfold handleLong; rw [hp2]
        by_cases h1 : w < c.length
        · have h2 : p.1 ≠ [] := fun hc => hb ⟨h1, hc⟩
          simp only [h1, if_true, if_neg h2]
        · simp only [h1, if_false]
      rw [heq] at hline
      left
      rcases hsum with h1 | h1
      · calc sumLen line ≤ sumLen p.1 := hline ▸ sumLen_dropLastWs p.1
          _ ≤ w := h1
      · rw [hline, h1]
        simp [dropLastWs, sumLen]

lemma wrapOnce_rest_length (w : ℕ) (hl : Bool) (chs : List Chunk) (hne : chs ≠ []) :
    (wrapOnce w hl chs).2.length < chs.length := by
  rcases chs with _ | ⟨c, t⟩
  · exact absurd rfl hne
  simp only [wrapOnce]
  show (handleLong w (takeGreedy w 0 (dropLeadWs hl (c :: t)))).2.length < t.length + 1
  by_cases hd : (hl && isWsChunk c) = true
  · have h1 : dropLeadWs hl (c :: t) = t := by simp [dropLeadWs, hd]
    rw [h1]
    calc (handleLong w (takeGreedy w 0 t)).2.length
        ≤ (takeGreedy w 0 t).2.length := handleLong_rest_le w _
      _ ≤ t.length := by have := takeGreedy_lens w 0 t; omega
      _ < t.length + 1 := Nat.lt_succ_self _
  · have h1 : dropLeadWs hl (c :: t) = c :: t := by simp [dropLeadWs, hd]
    rw [h1]
    by_cases hfit : c.length ≤ w
    · have hne1 : (takeGreedy w 0 (c :: t)).1 ≠ [] := takeGreedy_nonempty_of_fits w c t hfit
      have hpos : 1 ≤ (takeGreedy w 0 (c :: t)).1.length := by
        rcases hx : (takeGreedy w 0 (c :: t)).1 with _ | _
        · exact absurd hx hne1
        · simp
      calc (handleLong w (takeGreedy w 0 (c :: t))).2.length
          ≤ (takeGreedy w 0 (c :: t)).2.length := handleLong_rest_le w _
        _ < t.length + 1 := by have := takeGreedy_lens w 0 (c :: t); simp at this; omega
    · have hg : takeGreedy w 0 (c :: t) = ([], c :: t) := by
        unfold takeGreedy; simp [hfit]
      rw [hg]
      have hlt : w < c.length := by omega
      unfold handleLong
      simp only [hlt, if_true, if_pos rfl]
      simp

/-! ### The outer wrap loop -/

lemma wrapGo_conserve (w : ℕ) :
    ∀ fuel (hl : Bool) (chs : List Chunk), chs.length ≤ fuel →
      (wrapChunksGo w fuel hl chs).flatMap wordChunks = wordChunks chs := by
  intro fuel
  induction fuel with
  | zero =>
    intro hl chs h
    have : chs = [] := List.length_eq_zero.1 (Nat.le_zero.1 h)
    subst this
    rfl
  | succ f ih =>
    intro hl chs h
    rcases chs with _ | ⟨c, t⟩
    · rfl
    · have hcons := wrapOnce_conserve w hl (c :: t)
      have hrest := wrapOnce_rest_length w hl (c :: t) (by simp)
      have hle : (wrapOnce w hl (c :: t)).2.length ≤ f := by
        simp only [List.length_cons] at hrest h
        omega
      show (match (wrapOnce w hl (c :: t)).1 with
        | some line => line :: wrapChunksGo w f true (wrapOnce w hl (c :: t)).2
        | none => wrapChunksGo w f hl (wrapOnce w hl (c :: t)).2).flatMap wordChunks
          = wordChunks (c :: t)
      rcases ho : (wrapOnce w hl (c :: t)).1 with _ | line
      · rw [ho] at hcons
        simp only [Option.getD_none, List.nil_append] at hcons
        show (wrapChunksGo w f hl (wrapOnce w hl (c :: t)).2).flatMap wordChunks = _
        rw [ih hl _ hle]
        simpa using hcons
      · rw [ho] at hcons
        simp only [Option.getD_some] at hcons
        show (line :: wrapChunksGo w f true (wrapOnce w hl (c :: t)).2).flatMap wordChunks = _
        rw [List.flatMap_cons, ih true _ hle]
        exact hcons

lemma wrapGo_lines (w : ℕ) :
    ∀ fuel (hl : Bool) (chs : List Chunk), chs.length ≤ fuel → GoodChunks chs →
      ∀ line ∈ wrapChunksGo w fuel hl chs,
        GoodChunks line ∧
        (sumLen line ≤ w ∨ ∃ c, line = [c] ∧ isWsChunk c = false ∧ w < c.length) := by
  intro fuel
  induction fuel with
  | zero =>
    intro hl chs h hg line hline
    have : chs = [] := List.length_eq_zero.1 (Nat.le_zero.1 h)
    subst this
    exact absurd hline (by simp [wrapChunksGo])
  | succ f ih =>
    intro hl chs h hg line hline
    rcases chs with _ | ⟨c, t⟩
    · exact absurd hline (by simp [wrapChunksGo])
    · have hrest := wrapOnce_rest_length w hl (c :: t) (by simp)
      have hle : (wrapOnce w hl (c :: t)).2.length ≤ f := by
        simp only [List.length_cons] at hrest h
        omega
      have hgood := wrapOnce_good w hl hg
      rw [show wrapChunksGo w (f + 1) hl (c :: t) =
        (match (wrapOnce w hl (c :: t)).1 with
          | some line => line :: wrapChunksGo w f true (wrapOnce w hl (c :: t)).2
          | none => wrapChunksGo w f hl (wrapOnce w hl (c :: t)).2) from rfl] at hline
      rcases ho : (wrapOnce w hl (c :: t)).1 with _ | l0
      · rw [ho] at hline
        exact ih hl _ hle hgood.2 line hline
      · rw [ho] at hline
        rcases List.mem_cons.1 hline with h1 | h1
        · subst h1
          refine ⟨?_, wrapOnce_line_shape w hl (c :: t) line ho⟩
          have := hgood.1
          rw [ho] at this
          simpa using this
        · exact ih true _ hle hgood.2 line h1

/-! ### Word preservation and budget for `pyWrap` and `wrap_text` -/

lemma flatMap_congr_mem {α β : Type} {l : List α} {f g : α → List β}
    (h : ∀ x ∈ l, f x = g x) : l.flatMap f = l.flatMap g := by
  induction l with
  | nil => rfl
  | cons x t ih =>
    rw [List.flatMap_cons, List.flatMap_cons, h x (by simp),
      ih fun y hy => h y (by simp [hy])]

lemma pyWords_joinSp (ls : List (List Char)) :
    pyWords (joinSp ls) = ls.flatMap pyWords := by
  induction ls with
  | nil => rfl
  | cons x t ih =>
    cases t with
    | nil => simp [joinSp]
    | cons y t' =>
      show pyWords (x ++ ' ' :: joinSp (y :: t')) = _
      rw [pyWords_append_space, ih, List.flatMap_cons]
      simp [List.flatMap_cons]

lemma pyWords_eq_words_of_chunks (t : List Char) :
    pyWords t = wordChunks (splitChunks t) := by
  rw [← pyWords_munge, splitChunks, pyWords_eq_wordChunks_splitRuns]

lemma pyWrap_words (t : List Char) (w : ℕ) :
    pyWords (joinSp (pyWrap t w)) = pyWords t := by
  unfold pyWrap wrapChunks
  rw [pyWords_joinSp]
  have hgoods := wrapGo_lines w (splitChunks t).length false (splitChunks t)
    (le_refl _) (goodChunks_splitRuns _)
  rw [List.flatMap_map]
  rw [flatMap_congr_mem (g := wordChunks)
    (fun lc hlc => pyWords_flatten_good lc (hgoods lc hlc).1)]
  rw [wrapGo_conserve w _ false _ (le_refl _), pyWords_eq_words_of_chunks]

lemma pyWords_of_single_word {c : List Char} (hne : c ≠ [])
    (hall : ∀ x ∈ c, isPyWS x = false) : pyWords c = [c] := by
  have := wordsAux_wordrun hall [] []
  rw [List.append_nil] at this
  unfold pyWords
  rw [this]
  simp [wordsAux, hne]

lemma pyWrap_budget (t : List Char) (w : ℕ) :
    ∀ line ∈ pyWrap t w,
      line.length ≤ w ∨ (pyWords line = [line] ∧ w < line.length) := by
  intro line hline
  unfold pyWrap wrapChunks at hline
  rw [List.mem_map] at hline
  obtain ⟨lc, hlc, hfl⟩ := hline
  have hg := wrapGo_lines w (splitChunks t).length false (splitChunks t)
    (le_refl _) (goodChunks_splitRuns _) lc hlc
  rcases hg.2 with h1 | ⟨c, hc, hcw, hclen⟩
  · left
    rw [← hfl, List.length_flatten]
    simpa [sumLen] using h1
  · right
    subst hc
    have hflc : line = c := by rw [← hfl]; simp
    rw [hflc]
    obtain ⟨b, hbne, hball⟩ := hg.1.1 c (by simp)
    have hbf : b = false := by
      have hfb := isWsChunk_of_flag hbne hball
      rw [hcw] at hfb
      exact hfb.symm
    subst hbf
    exact ⟨pyWords_of_single_word hbne hball, hclen⟩

lemma pyWrap_nil_no_words (t : List Char) (w : ℕ) (h : pyWrap t w = []) :
    pyWords t = [] := by
  have := wrapGo_conserve w (splitChunks t).length false (splitChunks t) (le_refl _)
  unfold pyWrap wrapChunks at h
  rcases hgo : wrapChunksGo w (splitChunks t).length false (splitChunks t) with _ | _
  · rw [hgo] at this
    rw [pyWords_eq_words_of_chunks, ← this]
    rfl
  · rw [hgo] at h
    simp at h

lemma wrap_text_nil (w fs : ℚ) (b : Bool) : wrap_text [] w fs b = [[]] := by
  simp [wrap_text]

lemma wrap_text_fail {t : List Char} {w fs : ℚ} {b : Bool} (ht : t ≠ [])
    (hw : pyWrap t (maxCharsOf w fs b) = []) : wrap_text t w fs b = [t] := by
  unfold wrap_text
  rw [if_neg ht, hw]

lemma wrap_text_eq_pyWrap {t : List Char} {w fs : ℚ} {b : Bool} (ht : t ≠ [])
    (hne : pyWrap t (maxCharsOf w fs b) ≠ []) :
    wrap_text t w fs b = pyWrap t (maxCharsOf w fs b) := by
  unfold wrap_text
  rw [if_neg ht]
  rcases h : pyWrap t (maxCharsOf w fs b) with _ | ⟨l0, ls⟩
  · exact absurd h hne
  · rfl

lemma maxCharsOf_ge (w fs : ℚ) (b : Bool) : 12 ≤ maxCharsOf w fs b := by
  unfold maxCharsOf
  have h1 : (12 : ℤ) ≤ max 12 (pyInt (w / (fs * charFactor b))) := le_max_left _ _
  omega

/-- C1 (amended) : joining the lines of `wrap_text` with single spaces
reproduces the word sequence of the input exactly, and every returned line is
within the character budget unless it is a single over-long word — or the
input has no words at all, in which case the `or [text]` fallback returns
the whitespace-only input unchanged as one (over-long) line. -/
theorem wrap_text_words_and_budget (t : List Char) (w fs : ℚ) (b : Bool) :
    pyWords (joinSp (wrap_text t w fs b)) = pyWords t ∧
    ∀ line ∈ wrap_text t w fs b,
      line.length ≤ maxCharsOf w fs b ∨
      (pyWords line = [line] ∧ maxCharsOf w fs b < line.length) ∨
      (pyWords t = [] ∧ line = t) := by
  by_cases ht : t = []
  · subst ht
    rw [wrap_text_nil]
    constructor
    · rfl
    · intro line hline
      simp at hline
      subst hline
      exact Or.inl (by simp)
  · rcases hw : pyWrap t (maxCharsOf w fs b) with _ | ⟨l0, ls⟩
    · rw [wrap_text_fail ht hw]
      constructor
      · rfl
      · intro line hline
        simp at hline
        right; right
        exact ⟨pyWrap_nil_no_words t _ hw, hline⟩
    · have hne : pyWrap t (maxCharsOf w fs b) ≠ [] := by rw [hw]; simp
      rw [wrap_text_eq_pyWrap ht hne]
      constructor
      · exact pyWrap_words t _
      · intro line hline
        rcases pyWrap_budget t (maxCharsOf w fs b) line hline with h1 | h1
        · exact Or.inl h1
        · exact Or.inr (Or.inl h1)

/-- The property C1 claims as stated (without the whitespace-only escape
hatch): word preservation plus "every line fits the budget unless it is a
single over-long word". -/
def claimC1Stated (t : List Char) (w fs : ℚ) (b : Bool) : Prop :=
  pyWords (joinSp (wrap_text t w fs b)) = pyWords t ∧
  ∀ line ∈ wrap_text t w fs b,
    line.length ≤ maxCharsOf w fs b ∨
    (pyWords line = [line] ∧ maxCharsOf w fs b < line.length)

/-- C1 counterexample : thirteen spaces at budget 12 come back unchanged as a
13-character line that contains no word at all, violating the stated length
clause. -/
theorem wrap_text_claim_counterexample :
    ¬ claimC1Stated (List.replicate 13 ' ') 1 1 false := by
  intro h
  have h2 := h.2 (List.replicate 13 ' ') (by with_unfolding_all decide)
  rcases h2 with h2 | ⟨h2, _⟩
  · revert h2; with_unfolding_all decide
  · revert h2; with_unfolding_all decide

/-- Witness for C1: a concrete two-word input within budget. -/
theorem wrap_text_words_and_budget_witness :
    (('a' :: 'b' :: []) ∈ wrap_text ('a' :: 'b' :: []) 100 1 false) ∧
    (('a' :: 'b' :: []).length ≤ maxCharsOf 100 1 false ∨
      (pyWords ('a' :: 'b' :: []) = [('a' :: 'b' :: [])] ∧
        maxCharsOf 100 1 false < ('a' :: 'b' :: []).length) ∨
      (pyWords ('a' :: 'b' :: []) = [] ∧ ('a' :: 'b' :: []) = ('a' :: 'b' :: []))) :=
  ⟨by with_unfolding_all decide,
    (wrap_text_words_and_budget ('a' :: 'b' :: []) 100 1 false).2
      ('a' :: 'b' :: []) (by with_unfolding_all decide)⟩

/-! ### C4: the budget formula and the fallback behaviours of `wrap_text` -/

lemma expandTabs_no_ws {l : List Char} (h : ∀ c ∈ l, isPyWS c = false) :
    ∀ col, expandTabs col l = l := by
  induction l with
  | nil => intro col; rfl
  | cons c t ih =>
    intro col
    have hc := h c (by simp)
    have h1 : c ≠ '\t' := by intro hh; subst hh; exact absurd hc (by simp [isPyWS])
    have h2 : c ≠ '\n' := by intro hh; subst hh; exact absurd hc (by simp [isPyWS])
    have h3 : c ≠ '\r' := by intro hh; subst hh; exact absurd hc (by simp [isPyWS])
    show (if c = '\t' then _ else if c = '\n' || c = '\r' then _ else
      c :: expandTabs (col + 1) t) = c :: t
    rw [if_neg h1, if_neg (by simp [h2, h3])]
    rw [ih (fun d hd => h d (by simp [hd])) (col + 1)]

lemma munge_no_ws {l : List Char} (h : ∀ c ∈ l, isPyWS c = false) :
    mungeWhitespace l = l := by
  unfold mungeWhitespace
  rw [expandTabs_no_ws h 0]
  induction l with
  | nil => rfl
  | cons c t ih =>
    have hc := h c (by simp)
    rw [List.map_cons, hc, if_neg (by simp), ih (fun d hd => h d (by simp [hd]))]

lemma pyWrap_single_word {t : List Char} (hne : t ≠ [])
    (hall : ∀ c ∈ t, isPyWS c = false) (w : ℕ) : pyWrap t w = [t] := by
  have hws : isWsChunk t = false := isWsChunk_of_flag hne hall
  have hchunks : splitChunks t = [t] := by
    unfold splitChunks
    rw [munge_no_ws hall]
    exact splitRuns_single_run hne hall
  unfold pyWrap wrapChunks
  rw [hchunks]
  have hdl : dropLeadWs false [t] = [t] := by
    show (if (false && isWsChunk t) = true then [] else [t]) = [t]
    simp
  have hs3 : handleLong w (takeGreedy w 0 [t]) = ([t], []) := by
    by_cases hfit : 0 + t.length ≤ w
    · have hg : takeGreedy w 0 [t] = ([t], []) := by
        unfold takeGreedy
        rw [if_pos hfit]
        rfl
      rw [hg]
      rfl
    · have hg : takeGreedy w 0 [t] = ([], [t]) := by
        unfold takeGreedy
        rw [if_neg hfit]
      rw [hg]
      unfold handleLong
      have hlt : w < t.length := by omega
      simp [hlt]
  have hd : dropLastWs [t] = [t] := by
    show (if isWsChunk t then [] else [t]) = [t]
    rw [hws]
    rfl
  have hone : wrapOnce w false [t] = (some [t], []) := by
    simp only [wrapOnce, hdl, hs3, hd]
    simp [hne]
  show (wrapChunksGo w 1 false [t]).map List.flatten = [t]
  rw [show wrapChunksGo w 1 false [t] =
    (match (wrapOnce w false [t]).1 with
      | some line => line :: wrapChunksGo w 0 true (wrapOnce w false [t]).2
      | none => wrapChunksGo w 0 false (wrapOnce w false [t]).2) from rfl]
  rw [hone]
  simp [wrapChunksGo]

/-- C4 : the character budget is `max(12, floor(width / (fontSize * factor)))`
with factor `0.56` when bold and `0.53` otherwise; empty input yields one
empty line; when the greedy wrap produces no lines the original text is
returned unchanged; and an unbreakable single word (no whitespace at all,
e.g. one wider than the budget) is returned unchanged as a single line. -/
theorem wrap_text_formula_and_fallbacks (t : List Char) (w fs : ℚ) (b : Bool) :
    maxCharsOf w fs b = (max 12 ⌊w / (fs * (if b then (0.56 : ℚ) else 0.53))⌋).toNat ∧
    wrap_text [] w fs b = [[]] ∧
    (t ≠ [] → pyWrap t (maxCharsOf w fs b) = [] → wrap_text t w fs b = [t]) ∧
    (t ≠ [] → (∀ c ∈ t, isPyWS c = false) → wrap_text t w fs b = [t]) := by
  refine ⟨?_, wrap_text_nil w fs b, fun ht hw => wrap_text_fail ht hw, ?_⟩
  · unfold maxCharsOf pyInt charFactor
    by_cases hq : 0 ≤ w / (fs * (if b then (0.56 : ℚ) else 0.53))
    · rw [if_pos hq]
    · rw [if_neg hq]
      push_neg at hq
      have hq12 : w / (fs * (if b then (0.56 : ℚ) else 0.53)) ≤ ((12 : ℤ) : ℚ) :=
        le_trans (le_of_lt hq) (by norm_num)
      have h1 : ⌈w / (fs * (if b then (0.56 : ℚ) else 0.53))⌉ ≤ 12 := Int.ceil_le.mpr hq12
      have h2 : ⌊w / (fs * (if b then (0.56 : ℚ) else 0.53))⌋ ≤ 12 :=
        le_trans (Int.floor_le_ceil _) h1
      rw [max_eq_left h1, max_eq_left h2]
  · intro ht hall
    have hp : pyWrap t (maxCharsOf w fs b) = [t] := pyWrap_single_word ht hall _
    rw [wrap_text_eq_pyWrap ht (by rw [hp]; simp), hp]

/-- Witness for C4: the fallback clauses at concrete inputs — a whitespace-only
input and a single unbreakable word. -/
theorem wrap_text_formula_and_fallbacks_witness :
    ((' ' :: []) ≠ ([] : List Char) ∧ pyWrap (' ' :: []) (maxCharsOf 1 1 false) = [] ∧
      wrap_text (' ' :: []) 1 1 false = [(' ' :: [])]) ∧
    (('x' :: []) ≠ ([] : List Char) ∧ (∀ c ∈ ('x' :: []), isPyWS c = false) ∧
      wrap_text ('x' :: []) 5 1 false = [('x' :: [])]) :=
  ⟨⟨by decide, by with_unfolding_all decide,
    (wrap_text_formula_and_fallbacks (' ' :: []) 1 1 false).2.2.1 (by decide)
      (by with_unfolding_all decide)⟩,
   ⟨by decide, by decide,
    (wrap_text_formula_and_fallbacks ('x' :: []) 5 1 false).2.2.2 (by decide)
      (by decide)⟩⟩

/-! ## The PDF emitter: `StyledPdf.write_pdf` (source lines 162–214)

Bytes are modelled as natural numbers. -/

/-- `stream.encode("latin-1", errors="replace")`: code points above 255 are
replaced by `?` (byte 63). -/
def latin1Replace (s : List Char) : List ℕ :=
  s.map fun c => if c.toNat ≤ 255 then c.toNat else 63

/-- ASCII encoding of the PDF's structural strings. -/
def asciiBytes (s : String) : List ℕ := s.data.map Char.toNat

/-- `b"%PDF-1.4\n%\xe2\xe3\xcf\xd3\n"`. -/
def pdfHeader : List ℕ :=
  asciiBytes "%PDF-1.4\n%" ++ [0xe2, 0xe3, 0xcf, 0xd3] ++ asciiBytes "\n"

def catalogObj : List ℕ := asciiBytes "<< /Type /Catalog /Pages 2 0 R >>"

def font1Obj : List ℕ :=
  asciiBytes "<< /Type /Font /Subtype /Type1 /BaseFont /Helvetica >>"

def font2Obj : List ℕ :=
  asciiBytes "<< /Type /Font /Subtype /Type1 /BaseFont /Helvetica-Bold >>"

/-- A content-stream object: `<< /Length N >>\nstream\n` + body + `endstream`,
where `N` is the byte length of the latin-1-encoded stream. -/
def contentObj (stream : List Char) : List ℕ :=
  asciiBytes ("<< /Length " ++ toString (latin1Replace stream).length ++ " >>\nstream\n")
    ++ latin1Replace stream ++ asciiBytes "endstream"

/-- A page object referencing the shared fonts and its content stream. -/
def pageObj (contentId : ℕ) : List ℕ :=
  asciiBytes ("<< /Type /Page /Parent 2 0 R /MediaBox [0 0 595 842] /Resources << /Font << /F1 3 0 R /F2 4 0 R >> >> /Contents "
    ++ toString contentId ++ " 0 R >>")

/-- The page object ids: 5, 7, 9, … (one per page). -/
def pageIdsOf (n : ℕ) : List ℕ := (List.range n).map fun i => 5 + 2 * i

/-- The pages-tree object (id 2). -/
def pagesObj (n : ℕ) : List ℕ :=
  asciiBytes ("<< /Type /Pages /Count " ++ toString n ++ " /Kids ["
    ++ String.intercalate " " ((pageIdsOf n).map fun k => toString k ++ " 0 R") ++ "] >>")

/-- The loop `for stream in self.page_streams` with `next_id` starting at 5:
each page allocates `(page_id, content_id) = (next_id, next_id + 1)`. -/
def pagePairs : List (List Char) → ℕ → List (ℕ × List ℕ)
  | [], _ => []
  | s :: rest, k => (k, pageObj (k + 1)) :: (k + 1, contentObj s) :: pagePairs rest (k + 2)

/-- The object table in emission order.  The source builds a dict with keys
`{1, 3, 4}`, then the page/content pairs from 5, then key 2, and iterates
`sorted(objects)`; the keys are exactly `1 .. 4 + 2·pages`, so the sorted
iteration is this ascending association list. -/
def orderedObjects (streams : List (List Char)) : List (ℕ × List ℕ) :=
  (1, catalogObj) :: (2, pagesObj streams.length) :: (3, font1Obj) :: (4, font2Obj)
    :: pagePairs streams 5

/-- One emitted object: `{id} 0 obj\n` + body + `\nendobj\n`. -/
def objChunk (p : ℕ × List ℕ) : List ℕ :=
  asciiBytes (toString p.1 ++ " 0 obj\n") ++ p.2 ++ asciiBytes "\nendobj\n"

def emitObjects (l : List (ℕ × List ℕ)) : List ℕ := l.flatMap objChunk

/-- `offsets[obj_id] = sum(len(p) for p in output_parts)` before each object
is appended: the byte offset of every object, as an association list. -/
def offsetsFrom (base : ℕ) : List (ℕ × List ℕ) → List (ℕ × ℕ)
  | [] => []
  | p :: rest => (p.1, base) :: offsetsFrom (base + (objChunk p).length) rest

def assocGet (l : List (ℕ × ℕ)) (k : ℕ) : Option ℕ :=
  (l.find? fun p => p.1 == k).map Prod.snd

/-- `offsets.get(i, 0)`. -/
def offGetD (l : List (ℕ × ℕ)) (k : ℕ) : ℕ := (assocGet l k).getD 0

/-- `f"{off:010d}"`. -/
def pad10 (n : ℕ) : String :=
  String.mk (List.replicate (10 - (toString n).length) '0' ++ (toString n).data)

/-- `max(ordered)`. -/
def maxIdOf (l : List (ℕ × List ℕ)) : ℕ := (l.map Prod.fst).foldr max 0

/-- The cross-reference section: header, the object-0 free entry, and one
20-byte entry per object id from 1 to the maximum. -/
def xrefSection (maxId : ℕ) (offs : List (ℕ × ℕ)) : List ℕ :=
  asciiBytes ("xref\n0 " ++ toString (maxId + 1) ++ "\n")
    ++ asciiBytes "0000000000 65535 f \n"
    ++ (List.range' 1 maxId).flatMap fun i => asciiBytes (pad10 (offGetD offs i) ++ " 00000 n \n")

def trailerBytes (size xpos : ℕ) : List ℕ :=
  asciiBytes ("trailer\n<< /Size " ++ toString size ++ " /Root 1 0 R >>\nstartxref\n"
    ++ toString xpos ++ "\n%%EOF\n")

/-- `StyledPdf.write_pdf`: the full byte stream written to the output file,
as a function of the page streams. -/
def write_pdf (streams : List (List Char)) : List ℕ :=
  let objs := orderedObjects streams
  let body := emitObjects objs
  pdfHeader ++ body
    ++ xrefSection (maxIdOf objs) (offsetsFrom pdfHeader.length objs)
    ++ trailerBytes (maxIdOf objs + 1) (pdfHeader.length + body.length)

/-- The body of the object with a given id, looked up in the object table. -/
def objBodyAt (streams : List (List Char)) (id : ℕ) : Option (List ℕ) :=
  ((orderedObjects streams).find? fun p => p.1 == id).map Prod.snd

/-! ### C2/C3 lemmas -/

lemma asciiBytes_append (a b : String) :
    asciiBytes (a ++ b) = asciiBytes a ++ asciiBytes b := by
  show ((a ++ b).data).map Char.toNat = _
  rw [String.data_append, List.map_append]
  rfl

lemma pagePairs_map_fst (streams : List (List Char)) :
    ∀ k, (pagePairs streams k).map Prod.fst = List.range' k (2 * streams.length) := by
  induction streams with
  | nil => intro k; rfl
  | cons s rest ih =>
    intro k
    show k :: (k + 1) :: (pagePairs rest (k + 2)).map Prod.fst
      = List.range' k (2 * (rest.length + 1))
    rw [ih (k + 2)]
    rw [show 2 * (rest.length + 1) = 2 * rest.length + 1 + 1 by ring]
    rw [List.range'_succ, List.range'_succ]

lemma orderedObjects_map_fst (streams : List (List Char)) :
    (orderedObjects streams).map Prod.fst = List.range' 1 (4 + 2 * streams.length) := by
  show 1 :: 2 :: 3 :: 4 :: (pagePairs streams 5).map Prod.fst = _
  rw [pagePairs_map_fst streams 5]
  rw [show 4 + 2 * streams.length = (2 * streams.length + 1 + 1 + 1 + 1) by ring]
  rw [List.range'_succ, List.range'_succ, List.range'_succ, List.range'_succ]

lemma offsetsFrom_map_fst (l : List (ℕ × List ℕ)) :
    ∀ base, (offsetsFrom base l).map Prod.fst = l.map Prod.fst := by
  induction l with
  | nil => intro base; rfl
  | cons p rest ih =>
    intro base
    show p.1 :: (offsetsFrom (base + (objChunk p).length) rest).map Prod.fst = _
    rw [ih]
    rfl

lemma offsetsFrom_le {id off : ℕ} :
    ∀ (l : List (ℕ × List ℕ)) (base : ℕ), (id, off) ∈ offsetsFrom base l →
      base ≤ off ∧ off ≤ base + (emitObjects l).length := by
  intro l
  induction l with
  | nil => intro base h; exact absurd h (by simp [offsetsFrom])
  | cons p rest ih =>
    intro base h
    rcases List.mem_cons.1 h with h1 | h1
    · have : off = base := by
        have := congrArg Prod.snd h1
        simpa using this
      subst this
      exact ⟨le_refl _, Nat.le_add_right _ _⟩
    · obtain ⟨hb1, hb2⟩ := ih (base + (objChunk p).length) h1
      constructor
      · omega
      · have : emitObjects (p :: rest) = objChunk p ++ emitObjects rest := rfl
        rw [this, List.length_append]
        omega

lemma objChunk_split (p : ℕ × List ℕ) :
    objChunk p = asciiBytes (toString p.1 ++ " 0 obj") ++
      (asciiBytes "\n" ++ p.2 ++ asciiBytes "\nendobj\n") := by
  unfold objChunk
  have h2 : (" 0 obj\n" : String) = " 0 obj" ++ "\n" := by decide
  have h1 : toString p.1 ++ " 0 obj\n" = (toString p.1 ++ " 0 obj") ++ "\n" := by
    rw [String.append_assoc, ← h2]
  rw [h1, asciiBytes_append]
  simp [List.append_assoc]

lemma offset_drop {id off : ℕ} :
    ∀ (l : List (ℕ × List ℕ)) (pre : List ℕ), (id, off) ∈ offsetsFrom pre.length l →
      ∃ post, (pre ++ emitObjects l).drop off
        = asciiBytes (toString id ++ " 0 obj") ++ post := by
  intro l
  induction l with
  | nil => intro pre h; exact absurd h (by simp [offsetsFrom])
  | cons p rest ih =>
    intro pre h
    rcases List.mem_cons.1 h with h1 | h1
    · have hid : id = p.1 := by
        have := congrArg Prod.fst h1
        simpa using this
      have hoff : off = pre.length := by
        have := congrArg Prod.snd h1
        simpa using this
      subst hid hoff
      refine ⟨asciiBytes "\n" ++ p.2 ++ asciiBytes "\nendobj\n" ++ emitObjects rest, ?_⟩
      have hemit : emitObjects (p :: rest) = objChunk p ++ emitObjects rest := rfl
      rw [hemit, List.drop_left, objChunk_split]
      simp [List.append_assoc]
    · have hlen : pre.length + (objChunk p).length = (pre ++ objChunk p).length := by
        rw [List.length_append]
      rw [hlen] at h1
      obtain ⟨post, hpost⟩ := ih (pre ++ objChunk p) h1
      refine ⟨post, ?_⟩
      have hemit : emitObjects (p :: rest) = objChunk p ++ emitObjects rest := rfl
      rw [hemit, ← List.append_assoc]
      exact hpost

lemma emit_infix {id : ℕ} {b : List ℕ} :
    ∀ (l : List (ℕ × List ℕ)), (id, b) ∈ l →
      ∃ pre post, emitObjects l = pre ++ b ++ post := by
  intro l
  induction l with
  | nil => intro h; exact absurd h (by simp)
  | cons p rest ih =>
    intro h
    rcases List.mem_cons.1 h with h1 | h1
    · refine ⟨asciiBytes (toString id ++ " 0 obj\n"), asciiBytes "\nendobj\n"
        ++ emitObjects rest, ?_⟩
      have hemit : emitObjects (p :: rest) = objChunk p ++ emitObjects rest := rfl
      rw [hemit, ← h1]
      unfold objChunk
      simp [List.append_assoc]
    · obtain ⟨pre, post, hp⟩ := ih h1
      refine ⟨objChunk p ++ pre, post, ?_⟩
      have hemit : emitObjects (p :: rest) = objChunk p ++ emitObjects rest := rfl
      rw [hemit, hp]
      simp [List.append_assoc]

lemma contentObj_mem (streams : List (List Char)) :
    ∀ (k i : ℕ) (h : i < streams.length),
      (k + 2 * i + 1, contentObj (streams.get ⟨i, h⟩)) ∈ pagePairs streams k := by
  induction streams with
  | nil => intro k i h; exact absurd h (by simp)
  | cons s rest ih =>
    intro k i h
    rcases i with _ | i
    · rw [show k + 2 * 0 + 1 = k + 1 by ring]
      show (k + 1, contentObj s)
        ∈ (k, pageObj (k + 1)) :: (k + 1, contentObj s) :: pagePairs rest (k + 2)
      exact List.mem_cons.2 (Or.inr (List.mem_cons.2 (Or.inl rfl)))
    · have h' : i < rest.length := by simpa using h
      have hmem := ih (k + 2) i h'
      rw [show k + 2 * (i + 1) + 1 = (k + 2) + 2 * i + 1 by ring]
      show ((k + 2) + 2 * i + 1, contentObj ((s :: rest).get ⟨i + 1, h⟩))
        ∈ (k, pageObj (k + 1)) :: (k + 1, contentObj s) :: pagePairs rest (k + 2)
      exact List.mem_cons.2 (Or.inr (List.mem_cons.2 (Or.inr hmem)))

lemma pagePairs_find_page (streams : List (List Char)) :
    ∀ (k i : ℕ), i < streams.length →
      ((pagePairs streams k).find? fun p => p.1 == k + 2 * i).map Prod.snd
        = some (pageObj (k + 2 * i + 1)) := by
  induction streams with
  | nil => intro k i h; exact absurd h (by simp)
  | cons s rest ih =>
    intro k i h
    rcases i with _ | i
    · show ((((k, pageObj (k+1)) :: _).find? fun p => p.1 == k + 2 * 0)).map Prod.snd = _
      rw [List.find?_cons_of_pos _ (by simp)]
      rfl
    · have h' : i < rest.length := by simpa using h
      show ((((k, pageObj (k+1)) :: ((k+1, contentObj s) :: pagePairs rest (k+2))).find?
        fun p => p.1 == k + 2 * (i+1))).map Prod.snd = _
      rw [List.find?_cons_of_neg _ (by simp only [beq_iff_eq]; omega),
        List.find?_cons_of_neg _ (by simp only [beq_iff_eq]; omega)]
      have := ih (k + 2) i h'
      rw [show k + 2 * (i + 1) = (k + 2) + 2 * i by ring]
      rw [this]

lemma pagePairs_find_content (streams : List (List Char)) :
    ∀ (k i : ℕ) (h : i < streams.length),
      ((pagePairs streams k).find? fun p => p.1 == k + 2 * i + 1).map Prod.snd
        = some (contentObj (streams.get ⟨i, h⟩)) := by
  induction streams with
  | nil => intro k i h; exact absurd h (by simp)
  | cons s rest ih =>
    intro k i h
    rcases i with _ | i
    · show ((((k, pageObj (k+1)) :: ((k+1, contentObj s) :: pagePairs rest (k+2))).find?
        fun p => p.1 == k + 2 * 0 + 1)).map Prod.snd = _
      rw [List.find?_cons_of_neg _ (by simp only [beq_iff_eq]; omega),
        List.find?_cons_of_pos _ (by simp)]
      rfl
    · have h' : i < rest.length := by simpa using h
      show ((((k, pageObj (k+1)) :: ((k+1, contentObj s) :: pagePairs rest (k+2))).find?
        fun p => p.1 == k + 2 * (i+1) + 1)).map Prod.snd = _
      rw [List.find?_cons_of_neg _ (by simp only [beq_iff_eq]; omega),
        List.find?_cons_of_neg _ (by simp only [beq_iff_eq]; omega)]
      have := ih (k + 2) i h'
      rw [show k + 2 * (i + 1) + 1 = (k + 2) + 2 * i + 1 by ring]
      rw [this]
      rfl

/-- C2 : object ids are dense from 1 in the fixed allocation order
(Catalog = 1, PagesTree = 2, Font1 = 3, Font2 = 4, then one (page, content)
id pair per page from 5); the offset table records one offset per id from 1
to the maximum; the file contains the xref header with the object-0 free
entry; and seeking to any recorded offset lands exactly on that object's
`<id> 0 obj` token. -/
theorem write_pdf_ids_and_xref (streams : List (List Char)) :
    ((orderedObjects streams).map Prod.fst = List.range' 1 (4 + 2 * streams.length)) ∧
    (objBodyAt streams 1 = some catalogObj ∧
     objBodyAt streams 2 = some (pagesObj streams.length) ∧
     objBodyAt streams 3 = some font1Obj ∧
     objBodyAt streams 4 = some font2Obj) ∧
    (∀ i, (h : i < streams.length) →
      objBodyAt streams (5 + 2 * i) = some (pageObj (6 + 2 * i)) ∧
      objBodyAt streams (6 + 2 * i) = some (contentObj (streams.get ⟨i, h⟩))) ∧
    ((offsetsFrom pdfHeader.length (orderedObjects streams)).map Prod.fst
      = List.range' 1 (4 + 2 * streams.length)) ∧
    (∃ entries, write_pdf streams = pdfHeader ++ emitObjects (orderedObjects streams)
      ++ asciiBytes ("xref\n0 " ++ toString (maxIdOf (orderedObjects streams) + 1) ++ "\n")
      ++ asciiBytes "0000000000 65535 f \n" ++ entries) ∧
    (∀ id off, (id, off) ∈ offsetsFrom pdfHeader.length (orderedObjects streams) →
      ∃ post, (write_pdf streams).drop off = asciiBytes (toString id ++ " 0 obj") ++ post) := by
  refine ⟨orderedObjects_map_fst streams, ⟨?_, ?_, ?_, ?_⟩, ?_, ?_, ?_, ?_⟩
  · unfold objBodyAt orderedObjects
    rw [List.find?_cons_of_pos _ (by simp)]
    rfl
  · unfold objBodyAt orderedObjects
    rw [List.find?_cons_of_neg _ (by simp), List.find?_cons_of_pos _ (by simp)]
    rfl
  · unfold objBodyAt orderedObjects
    rw [List.find?_cons_of_neg _ (by simp), List.find?_cons_of_neg _ (by simp),
      List.find?_cons_of_pos _ (by simp)]
    rfl
  · unfold objBodyAt orderedObjects
    rw [List.find?_cons_of_neg _ (by simp), List.find?_cons_of_neg _ (by simp),
      List.find?_cons_of_neg _ (by simp), List.find?_cons_of_pos _ (by simp)]
    rfl
  · intro i h
    constructor
    · unfold objBodyAt orderedObjects
      rw [List.find?_cons_of_neg _ (by simp only [beq_iff_eq]; omega),
        List.find?_cons_of_neg _ (by simp only [beq_iff_eq]; omega),
        List.find?_cons_of_neg _ (by simp only [beq_iff_eq]; omega),
        List.find?_cons_of_neg _ (by simp only [beq_iff_eq]; omega)]
      have := pagePairs_find_page streams 5 i h
      rw [this, show 5 + 2 * i + 1 = 6 + 2 * i by ring]
    · unfold objBodyAt orderedObjects
      rw [List.find?_cons_of_neg _ (by simp only [beq_iff_eq]; omega),
        List.find?_cons_of_neg _ (by simp only [beq_iff_eq]; omega),
        List.find?_cons_of_neg _ (by simp only [beq_iff_eq]; omega),
        List.find?_cons_of_neg _ (by simp only [beq_iff_eq]; omega)]
      have := pagePairs_find_content streams 5 i h
      rw [show (6 : ℕ) + 2 * i = 5 + 2 * i + 1 by ring, this]
  · rw [offsetsFrom_map_fst, orderedObjects_map_fst]
  · refine ⟨((List.range' 1 (maxIdOf (orderedObjects streams))).flatMap fun i =>
      asciiBytes (pad10 (offGetD (offsetsFrom pdfHeader.length (orderedObjects streams)) i)
        ++ " 00000 n \n"))
      ++ trailerBytes (maxIdOf (orderedObjects streams) + 1)
        (pdfHeader.length + (emitObjects (orderedObjects streams)).length), ?_⟩
    simp only [write_pdf, xrefSection, List.append_assoc]
  · intro id off hmem
    have hle := (offsetsFrom_le (orderedObjects streams) pdfHeader.length hmem).2
    obtain ⟨post, hpost⟩ := offset_drop (orderedObjects streams) pdfHeader hmem
    refine ⟨post ++ (xrefSection (maxIdOf (orderedObjects streams))
        (offsetsFrom pdfHeader.length (orderedObjects streams))
      ++ trailerBytes (maxIdOf (orderedObjects streams) + 1)
        (pdfHeader.length + (emitObjects (orderedObjects streams)).length)), ?_⟩
    have hw : write_pdf streams = (pdfHeader ++ emitObjects (orderedObjects streams))
        ++ (xrefSection (maxIdOf (orderedObjects streams))
          (offsetsFrom pdfHeader.length (orderedObjects streams))
        ++ trailerBytes (maxIdOf (orderedObjects streams) + 1)
          (pdfHeader.length + (emitObjects (orderedObjects streams)).length)) := by
      simp only [write_pdf, List.append_assoc]
    rw [hw, List.drop_append_of_le_length (by
      rw [List.length_append]
      exact hle), hpost]
    simp [List.append_assoc]

/-- Witness for C2: with no pages, the catalog's recorded offset seeks to
`1 0 obj`. -/
theorem write_pdf_ids_and_xref_witness :
    ((1, pdfHeader.length) ∈ offsetsFrom pdfHeader.length (orderedObjects [])) ∧
    (∃ post, (write_pdf []).drop pdfHeader.length
      = asciiBytes (toString 1 ++ " 0 obj") ++ post) :=
  ⟨by decide,
    (write_pdf_ids_and_xref []).2.2.2.2.2 1 pdfHeader.length (by decide)⟩

/-- C3 : in the emitted file, every page's content-stream object carries a
`/Length` integer equal to the exact byte count of the latin-1-encoded
stream body lying between `stream\n` and `endstream`. -/
theorem write_pdf_content_length (streams : List (List Char)) :
    ∀ i, (h : i < streams.length) →
      ∃ pre post, write_pdf streams =
        pre ++ asciiBytes ("<< /Length "
            ++ toString (latin1Replace (streams.get ⟨i, h⟩)).length ++ " >>\nstream\n")
          ++ latin1Replace (streams.get ⟨i, h⟩) ++ asciiBytes "endstream" ++ post := by
  intro i h
  have hmem : (5 + 2 * i + 1, contentObj (streams.get ⟨i, h⟩))
      ∈ pagePairs streams 5 := contentObj_mem streams 5 i h
  have hmem2 : (5 + 2 * i + 1, contentObj (streams.get ⟨i, h⟩))
      ∈ orderedObjects streams := by
    unfold orderedObjects
    exact List.mem_cons.2 (Or.inr (List.mem_cons.2 (Or.inr (List.mem_cons.2
      (Or.inr (List.mem_cons.2 (Or.inr hmem)))))))
  obtain ⟨pre, post, hp⟩ := emit_infix (orderedObjects streams) hmem2
  refine ⟨pdfHeader ++ pre,
    post ++ (xrefSection (maxIdOf (orderedObjects streams))
        (offsetsFrom pdfHeader.length (orderedObjects streams))
      ++ trailerBytes (maxIdOf (orderedObjects streams) + 1)
        (pdfHeader.length + (emitObjects (orderedObjects streams)).length)), ?_⟩
  have hw : write_pdf streams = pdfHeader ++ emitObjects (orderedObjects streams)
      ++ (xrefSection (maxIdOf (orderedObjects streams))
        (offsetsFrom pdfHeader.length (orderedObjects streams))
      ++ trailerBytes (maxIdOf (orderedObjects streams) + 1)
        (pdfHeader.length + (emitObjects (orderedObjects streams)).length)) := by
    simp only [write_pdf, List.append_assoc]
  rw [hw, hp]
  unfold contentObj
  simp [List.append_assoc]

/-- Witness for C3: a one-page document with stream `"ab"`. -/
theorem write_pdf_content_length_witness :
    ∃ pre post, write_pdf [('a' :: 'b' :: [])] =
      pre ++ asciiBytes ("<< /Length "
          ++ toString (latin1Replace ([('a' :: 'b' :: [])].get ⟨0, by decide⟩)).length
          ++ " >>\nstream\n")
        ++ latin1Replace ([('a' :: 'b' :: [])].get ⟨0, by decide⟩)
        ++ asciiBytes "endstream" ++ post :=
  write_pdf_content_length [('a' :: 'b' :: [])] 0 (by decide)

/-! ## The layout engine: `StyledPdf` drawing and `generate` (source lines 62–156, 235–333)

A page's content stream is modelled as a list of drawing commands (one per
`self.cmd` block of the corresponding drawing method); `renderInstr` maps
each to the exact command string the source emits, so a stream's bytes are
`renderStream`. -/

/-- String-literal characters. -/
def chs (s : String) : List Char := s.data

/-- Round to the nearest integer, ties to even — the rounding of `%.2f`. -/
def roundHalfEven (q : ℚ) : ℤ :=
  if q - ⌊q⌋ < 1 / 2 then ⌊q⌋
  else if 1 / 2 < q - ⌊q⌋ then ⌊q⌋ + 1
  else if ⌊q⌋ % 2 = 0 then ⌊q⌋ else ⌊q⌋ + 1

/-- Python `f"{q:.prec f}"` for the exact decimal values this program
formats (none of which sit near a binary rounding boundary). -/
def fmtFixed (prec : ℕ) (q : ℚ) : List Char :=
  let m := (roundHalfEven (|q| * (10 ^ prec : ℕ))).toNat
  let ip := m / 10 ^ prec
  let fp := m % 10 ^ prec
  (if q < 0 then ['-'] else []) ++ (toString ip).data
    ++ '.' :: (List.replicate (prec - (toString fp).length) '0' ++ (toString fp).data)

def fmt2 (q : ℚ) : List Char := fmtFixed 2 q

def fmt3 (q : ℚ) : List Char := fmtFixed 3 q

/-- `circle_path` (source lines 37–47): four cubic Bézier segments. -/
def circle_path (cx cy radius : ℚ) : List Char :=
  let kappa : ℚ := 0.5522847498
  let c := radius * kappa
  fmt2 (cx + radius) ++ chs " " ++ fmt2 cy ++ chs " m "
  ++ fmt2 (cx + radius) ++ chs " " ++ fmt2 (cy + c) ++ chs " " ++ fmt2 (cx + c) ++ chs " "
    ++ fmt2 (cy + radius) ++ chs " " ++ fmt2 cx ++ chs " " ++ fmt2 (cy + radius) ++ chs " c "
  ++ fmt2 (cx - c) ++ chs " " ++ fmt2 (cy + radius) ++ chs " " ++ fmt2 (cx - radius) ++ chs " "
    ++ fmt2 (cy + c) ++ chs " " ++ fmt2 (cx - radius) ++ chs " " ++ fmt2 cy ++ chs " c "
  ++ fmt2 (cx - radius) ++ chs " " ++ fmt2 (cy - c) ++ chs " " ++ fmt2 (cx - c) ++ chs " "
    ++ fmt2 (cy - radius) ++ chs " " ++ fmt2 cx ++ chs " " ++ fmt2 (cy - radius) ++ chs " c "
  ++ fmt2 (cx + c) ++ chs " " ++ fmt2 (cy - radius) ++ chs " " ++ fmt2 (cx + radius) ++ chs " "
    ++ fmt2 (cy - c) ++ chs " " ++ fmt2 (cx + radius) ++ chs " " ++ fmt2 cy ++ chs " c "

/-- An RGB triple of the `Theme`. -/
abbrev Color := ℚ × ℚ × ℚ

def bgCol : Color := (0.03, 0.06, 0.14)
def panelCol : Color := (0.07, 0.13, 0.28)
def panelAltCol : Color := (0.06, 0.11, 0.24)
def borderCol : Color := (0.22, 0.33, 0.50)
def textCol : Color := (0.90, 0.95, 0.99)
def mutedCol : Color := (0.77, 0.84, 0.91)
def accentCol : Color := (0.91, 0.76, 0.50)
def accentAltCol : Color := (0.56, 0.44, 0.74)

/-- One emitted content-stream command (one `self.cmd` call). -/
inductive Instr where
  | fillCol (r g b : ℚ)
  | strokeCol (r g b : ℚ)
  | setLw (w : ℚ)
  | re (x y w h : ℚ)
  | paintB
  | paintF
  | paintS
  | circle (cx cy rad : ℚ) (op : String)
  | bt
  | tf (font : String) (size : ℚ)
  | tm (x y : ℚ)
  | tj (s : List Char)
  | et
deriving DecidableEq

/-- The exact bytes `self.cmd` appends for each command. -/
def renderInstr : Instr → List Char
  | .fillCol r g b => fmt3 r ++ chs " " ++ fmt3 g ++ chs " " ++ fmt3 b ++ chs " rg\n"
  | .strokeCol r g b => fmt3 r ++ chs " " ++ fmt3 g ++ chs " " ++ fmt3 b ++ chs " RG\n"
  | .setLw w => fmt2 w ++ chs " w\n"
  | .re x y w h => fmt2 x ++ chs " " ++ fmt2 y ++ chs " " ++ fmt2 w ++ chs " "
      ++ fmt2 h ++ chs " re\n"
  | .paintB => chs "B\n"
  | .paintF => chs "f\n"
  | .paintS => chs "S\n"
  | .circle cx cy rad op => circle_path cx cy rad ++ op.data ++ chs "\n"
  | .bt => chs "BT\n"
  | .tf font size => chs "/" ++ font.data ++ chs " " ++ fmt2 size ++ chs " Tf\n"
  | .tm x y => chs "1 0 0 1 " ++ fmt2 x ++ chs " " ++ fmt2 y ++ chs " Tm\n"
  | .tj s => chs "(" ++ s ++ chs ") Tj\n"
  | .et => chs "ET\n"

/-- The byte content of a page stream. -/
def renderStream (l : List Instr) : List Char := l.flatMap renderInstr

/-- The `StyledPdf` drawing state. -/
structure StyledPdf where
  page_streams : List (List Instr)
  current_stream : List Instr
  page_no : ℕ
deriving DecidableEq

def initPdf : StyledPdf := ⟨[], [], 0⟩

/-- `self.cmd(line)`. -/
def cmdI (p : StyledPdf) (i : Instr) : StyledPdf :=
  { p with current_stream := p.current_stream ++ [i] }

def color_fill (p : StyledPdf) (c : Color) : StyledPdf :=
  cmdI p (.fillCol c.1 c.2.1 c.2.2)

def color_stroke (p : StyledPdf) (c : Color) : StyledPdf :=
  cmdI p (.strokeCol c.1 c.2.1 c.2.2)

/-- The commands `rect` appends. -/
def rectInstrs (x y w h : ℚ) (fill stroke : Option Color) (lw : ℚ) : List Instr :=
  (match fill with | some c => [.fillCol c.1 c.2.1 c.2.2] | none => [])
  ++ (match stroke with | some c => [.strokeCol c.1 c.2.1 c.2.2, .setLw lw] | none => [])
  ++ [.re x y w h]
  ++ [match fill, stroke with
      | some _, some _ => .paintB
      | some _, none => .paintF
      | _, _ => .paintS]

/-- `StyledPdf.rect`. -/
def rectI (p : StyledPdf) (x y w h : ℚ) (fill stroke : Option Color) (lw : ℚ) : StyledPdf :=
  { p with current_stream := p.current_stream ++ rectInstrs x y w h fill stroke lw }

/-- The commands `text` appends (the string is escaped at emission). -/
def textInstrs (x y : ℚ) (value : List Char) (size : ℚ) (font : String)
    (color : Option Color) : List Instr :=
  (match color with | some c => [.fillCol c.1 c.2.1 c.2.2] | none => [])
  ++ [.bt, .tf font size, .tm x y, .tj (pdf_escape value), .et]

/-- `StyledPdf.text`. -/
def textI (p : StyledPdf) (x y : ℚ) (value : List Char) (size : ℚ) (font : String)
    (color : Option Color) : StyledPdf :=
  { p with current_stream := p.current_stream ++ textInstrs x y value size font color }

/-- One star dot of `draw_decor`: `x = 20 + (i*23) % 555`,
`y = 90 + (i*67) % 702`, size `1.2` unless `i % 3 == 0` (then `1.8`). -/
def starRect (p : StyledPdf) (i : ℕ) : StyledPdf :=
  rectI p ((20 + (i * 23) % 555 : ℕ) : ℚ) ((90 + (i * 67) % 702 : ℕ) : ℚ)
    (if i % 3 ≠ 0 then (1.2 : ℚ) else 1.8) (if i % 3 ≠ 0 then (1.2 : ℚ) else 1.8)
    (some (0.82, 0.92, 1.0)) none 1.0

/-- `StyledPdf.draw_decor`. -/
def draw_decor (p : StyledPdf) : StyledPdf :=
  let p := rectI p 0 0 595 842 (some bgCol) none 1.0
  let p := color_fill p (0.08, 0.18, 0.30)
  let p := cmdI p (.circle 40 (842 - 40) 170 "f")
  let p := color_fill p (0.12, 0.10, 0.24)
  let p := cmdI p (.circle (595 - 60) 120 200 "f")
  let p := color_stroke p borderCol
  let p := cmdI p (.setLw 1.25)
  let p := cmdI p (.circle (595 - 78) (842 - 66) 24 "S")
  let p := cmdI p (.circle (595 - 78) (842 - 66) 40 "S")
  let p := color_fill p (0.82, 0.92, 1.0)
  (List.range 24).foldl starRect p

/-- `StyledPdf.begin_page`. -/
def begin_page (p : StyledPdf) (name subtitle : List Char) (first : Bool) : StyledPdf :=
  let p := { p with page_no := p.page_no + 1, current_stream := ([] : List Instr) }
  let p := draw_decor p
  let header_h : ℚ := if first then 86 else 56
  let header_y : ℚ := 842 - 36 - header_h
  let p := rectI p 36 header_y 523 header_h (some panelCol) (some borderCol) 1.1
  let p := textI p (36 + 16) (header_y + header_h - 32) name
    (if first then 24 else 18) "F2" (some accentCol)
  let p := textI p (36 + 16) (header_y + header_h - 52) subtitle 11 "F1" (some textCol)
  if first then p
  else textI p (595 - 102) (header_y + 12) (chs "Page " ++ (toString p.page_no).data)
    9.5 "F1" (some mutedCol)

/-- `StyledPdf.finish_page`. -/
def finish_page (p : StyledPdf) : StyledPdf :=
  { p with
    page_streams := p.page_streams ++ [p.current_stream]
    current_stream := ([] : List Instr) }

/-! ### `generate` (source lines 235–333) -/

def contact_line : List Char :=
  chs "Email: iro-k@outlook.com  |  LinkedIn: linkedin.com/in/iro-karavasili-37379ab8  |  Location: Greece"

def metrics : List (List Char × List Char) :=
  [(chs "7+", chs "Years in Atlassian environments"),
   (chs "5", chs "Enterprise environments supported"),
   (chs "10+", chs "Atlassian Marketplace apps"),
   (chs "Cloud & DC", chs "Platform expertise")]

/-- One metric card (`for idx, (value, label) in enumerate(metrics)` body). -/
def metricCard (p : StyledPdf) (idx : ℕ) (value label : List Char) : StyledPdf :=
  let container_y : ℚ := 842 - 216
  let gap : ℚ := 8
  let card_w : ℚ := (523 - gap * 5) / 4
  let x : ℚ := 36 + gap + (idx : ℚ) * (card_w + gap)
  let y : ℚ := container_y + 12
  let p := rectI p x y card_w 64 (some (0.08, 0.14, 0.30)) (some borderCol) 0.8
  let p := textI p (x + 8) (y + 38) value (if idx < 3 then 16 else 13.5) "F2" (some accentCol)
  let wrapped := wrap_text label (card_w - 14) 8.8 false
  ((wrapped.take 2).foldl
    (fun (st : StyledPdf × ℚ) line =>
      (textI st.1 (x + 8) st.2 line 8.8 "F1" (some mutedCol), st.2 - 10))
    (p, y + 18)).1

/-- The metrics row: container panel plus the four cards. -/
def metricsRow (p : StyledPdf) : StyledPdf :=
  let container_y : ℚ := 842 - 216
  let p := rectI p 36 container_y 523 88 (some panelAltCol) (some borderCol) 1.0
  metrics.enum.foldl (fun p iv => metricCard p iv.1 iv.2.1 iv.2.2) p

/-- The fixed heading set. -/
def headingsList : List (List Char) :=
  [chs "Contact", chs "Languages", chs "Professional Summary", chs "Current Focus",
   chs "Core Strengths", chs "Tools and Platforms", chs "Atlassian Ecosystem",
   chs "Delivery and Operations", chs "Process and Governance", chs "Experience",
   chs "Education", chs "Certifications", chs "Interests"]

def x_text : ℚ := 36 + 12

def bottom_limit : ℚ := 56

/-- ASCII model of Python `str.upper()`. -/
def pyUpper (s : List Char) : List Char := s.map Char.toUpper

/-- `is_heading = line in headings and not line.startswith("-")`. -/
def isHeadingLine (line : List Char) : Bool :=
  headingsList.contains line && !(chs "-").isPrefixOf line

/-- `is_bullet = line.startswith("- ")`. -/
def isBulletLine (line : List Char) : Bool := (chs "- ").isPrefixOf line

/-- The `new_page` closure: finish the page, begin a non-first page, reset
the cursor to `PAGE_HEIGHT - 112`. -/
def new_page (name subtitle : List Char) (p : StyledPdf) : StyledPdf × ℚ :=
  (begin_page (finish_page p) name subtitle false, 842 - 112)

/-- The body-layout state: the pdf, the vertical cursor `y`, and (ghost
instrumentation, not part of the source state) the list of `y` positions at
which heading text has been rendered. -/
structure LayoutState where
  pdf : StyledPdf
  y : ℚ
  headingYs : List ℚ
deriving DecidableEq

/-- Blank line: `y -= 7;  if y < bottom_limit: y = new_page()`. -/
def blankStep (name subtitle : List Char) (st : LayoutState) : LayoutState :=
  if st.y - 7 < bottom_limit then
    ⟨(new_page name subtitle st.pdf).1, (new_page name subtitle st.pdf).2, st.headingYs⟩
  else ⟨st.pdf, st.y - 7, st.headingYs⟩

/-- Heading line: `y -= 6; if y < bottom_limit + 16: y = new_page();
text(x_text, y, line.upper(), size=11, font="F2", color=accent); y -= 14`.
The rendered `y` is recorded in the ghost trace. -/
def headingStep (name subtitle : List Char) (st : LayoutState) (line : List Char) :
    LayoutState :=
  let y1 := st.y - 6
  let pdf1 := if y1 < bottom_limit + 16 then (new_page name subtitle st.pdf).1 else st.pdf
  let y2 := if y1 < bottom_limit + 16 then (new_page name subtitle st.pdf).2 else y1
  let pdf2 := textI pdf1 x_text y2 (pyUpper line) 11 "F2" (some accentCol)
  ⟨pdf2, y2 - 14, st.headingYs ++ [y2]⟩

/-- One wrapped body part: page-break look-ahead of 10pt, then text at the
given x offset and size, cursor down 12pt. -/
def renderPart (name subtitle : List Char) (xpos size : ℚ) (st : StyledPdf × ℚ)
    (value : List Char) : StyledPdf × ℚ :=
  let pdf := if st.2 < bottom_limit + 10 then (new_page name subtitle st.1).1 else st.1
  let y := if st.2 < bottom_limit + 10 then (new_page name subtitle st.1).2 else st.2
  (textI pdf xpos y value size "F1" (some textCol), y - 12)

/-- Bullet line: strip the marker, wrap to `CONTENT_WIDTH - 38` at 9.6,
render the parts with `"- "` / `"  "` prefixes. -/
def bulletStep (name subtitle : List Char) (st : LayoutState) (line : List Char) :
    LayoutState :=
  let item := pyStrip (line.drop 2)
  let wrapped := wrap_text item (523 - 38) 9.6 false
  let r := wrapped.enum.foldl
    (fun acc ip =>
      renderPart name subtitle (x_text + 8) 9.6 acc
        ((if ip.1 = 0 then chs "- " else chs "  ") ++ ip.2))
    (st.pdf, st.y)
  ⟨r.1, r.2, st.headingYs⟩

/-- Plain line: wrap to `CONTENT_WIDTH - 24` at 9.8, render the parts. -/
def plainStep (name subtitle : List Char) (st : LayoutState) (line : List Char) :
    LayoutState :=
  let wrapped := wrap_text line (523 - 24) 9.8 false
  let r := wrapped.foldl (renderPart name subtitle x_text 9.8) (st.pdf, st.y)
  ⟨r.1, r.2, st.headingYs⟩

/-- The body of `for raw_line in lines`. -/
def bodyLine (name subtitle : List Char) (st : LayoutState) (raw : List Char) :
    LayoutState :=
  let line := pyStrip raw
  if line = [] then blankStep name subtitle st
  else if isHeadingLine line then headingStep name subtitle st line
  else if isBulletLine line then bulletStep name subtitle st line
  else plainStep name subtitle st line

/-- Everything `generate` draws before the body loop: the first page,
the contact line, and the metrics row. -/
def layoutPrelude (name subtitle : List Char) : StyledPdf :=
  let p := begin_page initPdf name subtitle true
  let p := textI p (36 + 16) (842 - 118) contact_line 9.2 "F1" (some mutedCol)
  metricsRow p

/-- The initial body-layout state: cursor at `container_y - 18 = 608`. -/
def initLayout (name subtitle : List Char) : LayoutState :=
  ⟨layoutPrelude name subtitle, (842 - 216) - 18, []⟩

/-- The whole layout pipeline of `generate` (excluding file I/O): the
finished document. -/
def generateDoc (name subtitle : List Char) (lines : List (List Char)) : StyledPdf :=
  finish_page (lines.foldl (bodyLine name subtitle) (initLayout name subtitle)).pdf

/-! ### `load_cv_lines` (source lines 217–232) -/

/-- The skip loop of `load_cv_lines`: drop the first two non-blank lines,
right-strip and keep everything else, threading the `skipped` counter. -/
def skipBody (skipped : ℕ) : List (List Char) → List (List Char)
  | [] => []
  | ln :: t =>
    if pyStrip ln ≠ [] then
      if skipped + 1 ≤ 2 then skipBody (skipped + 1) t
      else pyRstrip ln :: skipBody (skipped + 1) t
    else pyRstrip ln :: skipBody skipped t

/-- `load_cv_lines` on the file's line list (after `splitlines`). -/
def load_cv_lines (lines : List (List Char)) :
    List Char × List Char × List (List Char) :=
  let non_empty := (lines.map pyStrip).filter (· ≠ [])
  let name := match non_empty with
    | n :: _ => n
    | [] => chs "Iro Karavasili"
  let subtitle := match non_empty with
    | _ :: s :: _ => s
    | _ => chs "Atlassian Engineer - Service Delivery - Process Design"
  (name, subtitle, skipBody 0 lines)

/-- Modelled from the spec (claim C10's wording): remove the first `k`
non-blank lines, keep everything else in order. -/
def dropNB : ℕ → List (List Char) → List (List Char)
  | _, [] => []
  | k, ln :: t =>
    if pyStrip ln ≠ [] then
      (if 0 < k then dropNB (k - 1) t else ln :: dropNB 0 t)
    else ln :: dropNB k t

/-- Modelled from the spec: the body is the original line sequence with the
first two non-blank lines removed and every remaining line right-stripped. -/
def specBody (lines : List (List Char)) : List (List Char) :=
  (dropNB 2 lines).map pyRstrip

/-! ### Emission lemmas: the drawing helpers only append commands -/

/-- A drawing helper that leaves the page list and counter alone and appends
a fixed command segment (its emission from the empty stream). -/
def Emits (f : StyledPdf → StyledPdf) : Prop :=
  ∀ p, (f p).page_no = p.page_no ∧ (f p).page_streams = p.page_streams ∧
    (f p).current_stream = p.current_stream ++ (f initPdf).current_stream

lemma emits_cmdI (i : Instr) : Emits (fun p => cmdI p i) := by
  intro p
  refine ⟨rfl, rfl, ?_⟩
  simp [cmdI, initPdf]

lemma emits_color_fill (c : Color) : Emits (fun p => color_fill p c) :=
  emits_cmdI _

lemma emits_color_stroke (c : Color) : Emits (fun p => color_stroke p c) :=
  emits_cmdI _

lemma emits_rectI (x y w h : ℚ) (f s : Option Color) (lw : ℚ) :
    Emits (fun p => rectI p x y w h f s lw) := by
  intro p
  refine ⟨rfl, rfl, ?_⟩
  simp [rectI, initPdf]

lemma emits_textI (x y : ℚ) (v : List Char) (sz : ℚ) (fo : String) (c : Option Color) :
    Emits (fun p => textI p x y v sz fo c) := by
  intro p
  refine ⟨rfl, rfl, ?_⟩
  simp [textI, initPdf]

lemma emits_comp {f g : StyledPdf → StyledPdf} (hf : Emits f) (hg : Emits g) :
    Emits (fun p => g (f p)) := by
  intro p
  obtain ⟨h1, h2, h3⟩ := hf p
  obtain ⟨g1, g2, g3⟩ := hg (f p)
  obtain ⟨_, _, i3⟩ := hg (f initPdf)
  refine ⟨?_, ?_, ?_⟩
  · show (g (f p)).page_no = p.page_no
    rw [g1, h1]
  · show (g (f p)).page_streams = p.page_streams
    rw [g2, h2]
  · show (g (f p)).current_stream = p.current_stream ++ (g (f initPdf)).current_stream
    rw [g3, h3, i3, List.append_assoc]

lemma emits_foldl {α : Type} (F : StyledPdf → α → StyledPdf)
    (h : ∀ a, Emits (fun p => F p a)) :
    ∀ l : List α, Emits (fun p => l.foldl F p) := by
  intro l
  induction l with
  | nil =>
    intro p
    refine ⟨rfl, rfl, ?_⟩
    simp [initPdf]
  | cons a l ih =>
    have := emits_comp (h a) ih
    intro p
    exact this p

/-- The per-card label fold of `metricCard` (the `text_y` accumulator is
independent of the drawing state). -/
lemma emits_labelFold (x : ℚ) (ls : List (List Char)) :
    ∀ y : ℚ, Emits fun p =>
      ((ls.foldl (fun (st : StyledPdf × ℚ) line =>
        (textI st.1 (x + 8) st.2 line 8.8 "F1" (some mutedCol), st.2 - 10)) (p, y)).1) := by
  induction ls with
  | nil =>
    intro y p
    refine ⟨rfl, rfl, ?_⟩
    simp [initPdf]
  | cons line ls ih =>
    intro y
    exact emits_comp (emits_textI (x + 8) y line 8.8 "F1" (some mutedCol)) (ih (y - 10))

set_option maxHeartbeats 1000000 in
lemma emits_metricCard (idx : ℕ) (v l : List Char) :
    Emits (fun p => metricCard p idx v l) := by
  have h := emits_comp
    (emits_comp
      (emits_rectI (36 + 8 + (idx : ℚ) * ((523 - 8 * 5) / 4 + 8)) ((842 - 216 : ℚ) + 12)
        ((523 - 8 * 5) / 4) 64 (some (0.08, 0.14, 0.30)) (some borderCol) 0.8)
      (emits_textI (36 + 8 + (idx : ℚ) * ((523 - 8 * 5) / 4 + 8) + 8)
        ((842 - 216 : ℚ) + 12 + 38) v (if idx < 3 then (16 : ℚ) else 13.5) "F2"
        (some accentCol)))
    (emits_labelFold (36 + 8 + (idx : ℚ) * ((523 - 8 * 5) / 4 + 8))
      ((wrap_text l ((523 - 8 * 5) / 4 - 14) 8.8 false).take 2) ((842 - 216 : ℚ) + 12 + 18))
  exact h

lemma emits_metricsRow : Emits metricsRow := by
  have h := emits_comp
    (emits_rectI 36 (842 - 216 : ℚ) 523 88 (some panelAltCol) (some borderCol) 1.0)
    (emits_foldl (fun p iv => metricCard p iv.1 iv.2.1 iv.2.2)
      (fun iv => emits_metricCard iv.1 iv.2.1 iv.2.2) metrics.enum)
  exact h

lemma emits_starRect (i : ℕ) : Emits (fun p => starRect p i) := by
  have h := emits_rectI ((20 + (i * 23) % 555 : ℕ) : ℚ) ((90 + (i * 67) % 702 : ℕ) : ℚ)
    (if i % 3 ≠ 0 then (1.2 : ℚ) else 1.8) (if i % 3 ≠ 0 then (1.2 : ℚ) else 1.8)
    (some (0.82, 0.92, 1.0)) none 1.0
  exact h

lemma emits_draw_decor : Emits draw_decor := by
  have h := emits_comp (emits_comp (emits_comp (emits_comp (emits_comp (emits_comp
    (emits_comp (emits_comp (emits_comp (emits_comp
      (emits_rectI 0 0 595 842 (some bgCol) none 1.0)
      (emits_color_fill (0.08, 0.18, 0.30)))
      (emits_cmdI (.circle 40 (842 - 40) 170 "f")))
      (emits_color_fill (0.12, 0.10, 0.24)))
      (emits_cmdI (.circle (595 - 60) 120 200 "f")))
      (emits_color_stroke borderCol))
      (emits_cmdI (.setLw 1.25)))
      (emits_cmdI (.circle (595 - 78) (842 - 66) 24 "S")))
      (emits_cmdI (.circle (595 - 78) (842 - 66) 40 "S")))
      (emits_color_fill (0.82, 0.92, 1.0)))
    (emits_foldl starRect emits_starRect (List.range 24))
  exact h

/-! ### Page-number labels -/

/-- The distinctive font-selection command of a page-number label: no other
`text` call in the program uses font `F1` at size 9.5. -/
def labelTf : Instr := .tf "F1" 9.5

def labelCount (l : List Instr) : ℕ := l.count labelTf

/-- The six commands of a "Page N" label, as `begin_page` emits them. -/
def pageLabelBlock (nn : ℕ) : List Instr :=
  textInstrs (595 - 102) ((842 - 36 - 56 : ℚ) + 12) (chs "Page " ++ (toString nn).data)
    9.5 "F1" (some mutedCol)

lemma labelCount_append (a b : List Instr) :
    labelCount (a ++ b) = labelCount a + labelCount b := List.count_append _ _ _

lemma tfF2_ne_label (sz : ℚ) : Instr.tf "F2" sz ≠ labelTf := by
  intro h
  injection h with h1 h2
  exact absurd h1 (by decide)

lemma tfF1_ne_label {sz : ℚ} (h : sz ≠ 9.5) : Instr.tf "F1" sz ≠ labelTf := by
  intro hh
  injection hh with h1 h2
  exact h h2

lemma labelCount_rectInstrs (x y w h : ℚ) (f s : Option Color) (lw : ℚ) :
    labelCount (rectInstrs x y w h f s lw) = 0 := by
  rcases f with _ | cf <;> rcases s with _ | cs <;>
    simp [rectInstrs, labelCount, labelTf, List.count_cons, List.count_nil]

lemma labelCount_textInstrs (x y : ℚ) (v : List Char) (sz : ℚ) (fo : String)
    (c : Option Color) :
    labelCount (textInstrs x y v sz fo c) = if Instr.tf fo sz = labelTf then 1 else 0 := by
  rcases c with _ | cc <;>
    simp [textInstrs, labelCount, labelTf, List.count_cons, List.count_nil, beq_iff_eq]

lemma labelCount_textInstrs_ne (x y : ℚ) (v : List Char) {sz : ℚ} {fo : String}
    (c : Option Color) (h : Instr.tf fo sz ≠ labelTf) :
    labelCount (textInstrs x y v sz fo c) = 0 := by
  rw [labelCount_textInstrs, if_neg h]

/-- The decorative background drawn on every page. -/
def decorSeg : List Instr := (draw_decor initPdf).current_stream

lemma labelCount_decorSeg : labelCount decorSeg = 0 := by
  with_unfolding_all decide

/-- `begin_page` with `first_page=True`: the exact resulting state. -/
lemma begin_page_true_eq (p : StyledPdf) (n s : List Char) :
    begin_page p n s true = ⟨p.page_streams,
      decorSeg
      ++ rectInstrs 36 (842 - 36 - 86 : ℚ) 523 86 (some panelCol) (some borderCol) 1.1
      ++ textInstrs (36 + 16) ((842 - 36 - 86 : ℚ) + 86 - 32) n 24 "F2" (some accentCol)
      ++ textInstrs (36 + 16) ((842 - 36 - 86 : ℚ) + 86 - 52) s 11 "F1" (some textCol),
      p.page_no + 1⟩ := by
  show textI (textI (rectI (draw_decor ⟨p.page_streams, [], p.page_no + 1⟩)
      36 (842 - 36 - 86 : ℚ) 523 86 (some panelCol) (some borderCol) 1.1)
      (36 + 16) ((842 - 36 - 86 : ℚ) + 86 - 32) n 24 "F2" (some accentCol))
      (36 + 16) ((842 - 36 - 86 : ℚ) + 86 - 52) s 11 "F1" (some textCol) = _
  obtain ⟨d1, d2, d3⟩ := emits_draw_decor ⟨p.page_streams, [], p.page_no + 1⟩
  rcases hdd : draw_decor ⟨p.page_streams, [], p.page_no + 1⟩ with ⟨A, B, C⟩
  rw [hdd] at d1 d2 d3
  simp only [show (⟨A, B, C⟩ : StyledPdf).page_no = C from rfl,
    show (⟨A, B, C⟩ : StyledPdf).page_streams = A from rfl,
    show (⟨A, B, C⟩ : StyledPdf).current_stream = B from rfl,
    show (⟨p.page_streams, [], p.page_no + 1⟩ : StyledPdf).page_no = p.page_no + 1 from rfl,
    show (⟨p.page_streams, [], p.page_no + 1⟩ : StyledPdf).page_streams = p.page_streams
      from rfl,
    show (⟨p.page_streams, [], p.page_no + 1⟩ : StyledPdf).current_stream = [] from rfl,
    List.nil_append] at d1 d2 d3
  subst d1 d2 d3
  simp [textI, rectI, decorSeg, List.append_assoc]

/-- `begin_page` with `first_page=False`: the exact resulting state, ending
with the "Page N" label block for the incremented page counter. -/
lemma begin_page_false_eq (p : StyledPdf) (n s : List Char) :
    begin_page p n s false = ⟨p.page_streams,
      decorSeg
      ++ rectInstrs 36 (842 - 36 - 56 : ℚ) 523 56 (some panelCol) (some borderCol) 1.1
      ++ textInstrs (36 + 16) ((842 - 36 - 56 : ℚ) + 56 - 32) n 18 "F2" (some accentCol)
      ++ textInstrs (36 + 16) ((842 - 36 - 56 : ℚ) + 56 - 52) s 11 "F1" (some textCol)
      ++ pageLabelBlock (p.page_no + 1),
      p.page_no + 1⟩ := by
  show textI (textI (textI (rectI (draw_decor ⟨p.page_streams, [], p.page_no + 1⟩)
      36 (842 - 36 - 56 : ℚ) 523 56 (some panelCol) (some borderCol) 1.1)
      (36 + 16) ((842 - 36 - 56 : ℚ) + 56 - 32) n 18 "F2" (some accentCol))
      (36 + 16) ((842 - 36 - 56 : ℚ) + 56 - 52) s 11 "F1" (some textCol))
      (595 - 102) ((842 - 36 - 56 : ℚ) + 12)
      (chs "Page " ++ (toString
        (textI (textI (rectI (draw_decor ⟨p.page_streams, [], p.page_no + 1⟩)
          36 (842 - 36 - 56 : ℚ) 523 56 (some panelCol) (some borderCol) 1.1)
          (36 + 16) ((842 - 36 - 56 : ℚ) + 56 - 32) n 18 "F2" (some accentCol))
          (36 + 16) ((842 - 36 - 56 : ℚ) + 56 - 52) s 11 "F1" (some textCol)).page_no).data)
      9.5 "F1" (some mutedCol) = _
  obtain ⟨d1, d2, d3⟩ := emits_draw_decor ⟨p.page_streams, [], p.page_no + 1⟩
  rcases hdd : draw_decor ⟨p.page_streams, [], p.page_no + 1⟩ with ⟨A, B, C⟩
  rw [hdd] at d1 d2 d3
  simp only [show (⟨A, B, C⟩ : StyledPdf).page_no = C from rfl,
    show (⟨A, B, C⟩ : StyledPdf).page_streams = A from rfl,
    show (⟨A, B, C⟩ : StyledPdf).current_stream = B from rfl,
    show (⟨p.page_streams, [], p.page_no + 1⟩ : StyledPdf).page_no = p.page_no + 1 from rfl,
    show (⟨p.page_streams, [], p.page_no + 1⟩ : StyledPdf).page_streams = p.page_streams
      from rfl,
    show (⟨p.page_streams, [], p.page_no + 1⟩ : StyledPdf).current_stream = [] from rfl,
    List.nil_append] at d1 d2 d3
  subst d1 d2 d3
  simp [textI, rectI, decorSeg, pageLabelBlock, List.append_assoc]

/-! ### The page-label invariant -/

lemma getD_append_left {α : Type} (d : α) :
    ∀ (l m : List α) (k : ℕ), k < l.length → (l ++ m).getD k d = l.getD k d := by
  intro l
  induction l with
  | nil => intro m k hk; simp at hk
  | cons a l ih =>
    intro m k hk
    cases k with
    | zero => rfl
    | succ k =>
      show (l ++ m).getD k d = l.getD k d
      exact ih m k (by simpa using hk)

lemma getD_append_len {α : Type} (d : α) :
    ∀ (l : List α) (x : α), (l ++ [x]).getD l.length d = x := by
  intro l
  induction l with
  | nil => intro x; rfl
  | cons a l ih => intro x; exact ih x

lemma labelCount_pageLabelBlock (nn : ℕ) : labelCount (pageLabelBlock nn) = 1 := by
  rw [pageLabelBlock, labelCount_textInstrs]
  simp [labelTf]

/-- Every finalized page carries no label on page 1 and exactly the matching
`Page (k+1)` label on later pages. -/
def PageInv (pages : List (List Instr)) : Prop :=
  ∀ k, k < pages.length →
    labelCount (pages.getD k []) = (if k = 0 then 0 else 1) ∧
    (1 ≤ k → ∃ pre post, pages.getD k [] = pre ++ pageLabelBlock (k + 1) ++ post)

/-- The label invariant on the full drawing state during body layout. -/
def PdfInv (p : StyledPdf) : Prop :=
  p.page_no = p.page_streams.length + 1 ∧
  PageInv p.page_streams ∧
  labelCount p.current_stream = (if p.page_no = 1 then 0 else 1) ∧
  (2 ≤ p.page_no → ∃ pre post, p.current_stream = pre ++ pageLabelBlock p.page_no ++ post)

lemma pdfInv_emits {f : StyledPdf → StyledPdf} (hf : Emits f)
    (hc : labelCount (f initPdf).current_stream = 0) {p : StyledPdf} (h : PdfInv p) :
    PdfInv (f p) := by
  obtain ⟨e1, e2, e3⟩ := hf p
  refine ⟨by rw [e1, e2]; exact h.1, by rw [e2]; exact h.2.1, ?_, ?_⟩
  · rw [e3, labelCount_append, hc, e1]
    simpa using h.2.2.1
  · intro h2
    rw [e1] at h2
    obtain ⟨pre, post, hp⟩ := h.2.2.2 h2
    refine ⟨pre, post ++ (f initPdf).current_stream, ?_⟩
    rw [e3, e1, hp]
    simp [List.append_assoc]

lemma pageInv_snoc {p : StyledPdf} (h : PdfInv p) :
    PageInv (p.page_streams ++ [p.current_stream]) := by
  intro k hk
  rw [List.length_append, List.length_singleton] at hk
  by_cases hlt : k < p.page_streams.length
  · rw [getD_append_left _ _ _ _ hlt]
    exact h.2.1 k hlt
  · have hkeq : k = p.page_streams.length := by omega
    subst hkeq
    rw [getD_append_len]
    have hpn : p.page_no = p.page_streams.length + 1 := h.1
    constructor
    · rw [h.2.2.1, hpn]
      by_cases h0 : p.page_streams.length = 0 <;> simp [h0]
    · intro h1k
      have h2 : 2 ≤ p.page_no := by omega
      obtain ⟨pre, post, hp⟩ := h.2.2.2 h2
      exact ⟨pre, post, by rw [hp, hpn]⟩

lemma pdfInv_new_page (n s : List Char) {p : StyledPdf} (h : PdfInv p) :
    PdfInv (new_page n s p).1 := by
  show PdfInv (begin_page (finish_page p) n s false)
  rw [begin_page_false_eq]
  have hpn : p.page_no = p.page_streams.length + 1 := h.1
  refine ⟨?_, ?_, ?_, ?_⟩
  · show (finish_page p).page_no + 1 = (finish_page p).page_streams.length + 1
    show p.page_no + 1 = (p.page_streams ++ [p.current_stream]).length + 1
    rw [List.length_append, List.length_singleton, hpn]
  · exact pageInv_snoc h
  · show labelCount (decorSeg
      ++ rectInstrs 36 (842 - 36 - 56 : ℚ) 523 56 (some panelCol) (some borderCol) 1.1
      ++ textInstrs (36 + 16) ((842 - 36 - 56 : ℚ) + 56 - 32) n 18 "F2" (some accentCol)
      ++ textInstrs (36 + 16) ((842 - 36 - 56 : ℚ) + 56 - 52) s 11 "F1" (some textCol)
      ++ pageLabelBlock ((finish_page p).page_no + 1))
      = (if (finish_page p).page_no + 1 = 1 then 0 else 1)
    rw [labelCount_append, labelCount_append, labelCount_append, labelCount_append,
      labelCount_decorSeg, labelCount_rectInstrs,
      labelCount_textInstrs_ne _ _ _ _ (tfF2_ne_label 18),
      labelCount_textInstrs_ne _ _ _ _ (tfF1_ne_label (by norm_num)),
      labelCount_pageLabelBlock]
    have : (finish_page p).page_no + 1 ≠ 1 := by
      show p.page_no + 1 ≠ 1
      omega
    rw [if_neg this]
  · intro _
    refine ⟨decorSeg
      ++ rectInstrs 36 (842 - 36 - 56 : ℚ) 523 56 (some panelCol) (some borderCol) 1.1
      ++ textInstrs (36 + 16) ((842 - 36 - 56 : ℚ) + 56 - 32) n 18 "F2" (some accentCol)
      ++ textInstrs (36 + 16) ((842 - 36 - 56 : ℚ) + 56 - 52) s 11 "F1" (some textCol),
      [], ?_⟩
    simp [List.append_assoc]

lemma pdfInv_textI {sz : ℚ} {fo : String} (hne : Instr.tf fo sz ≠ labelTf)
    (x y : ℚ) (v : List Char) (c : Option Color) {p : StyledPdf} (h : PdfInv p) :
    PdfInv (textI p x y v sz fo c) := by
  refine pdfInv_emits (emits_textI x y v sz fo c) ?_ h
  show labelCount (initPdf.current_stream ++ textInstrs x y v sz fo c) = 0
  rw [show initPdf.current_stream = [] from rfl, List.nil_append,
    labelCount_textInstrs_ne _ _ _ _ hne]

lemma pdfInv_renderPart (n s : List Char) (xp : ℚ) {szq : ℚ}
    (hsz : Instr.tf "F1" szq ≠ labelTf) (st : StyledPdf × ℚ) (v : List Char)
    (h : PdfInv st.1) : PdfInv (renderPart n s xp szq st v).1 := by
  unfold renderPart
  by_cases hc : st.2 < bottom_limit + 10
  · simp only [hc, if_true]
    exact pdfInv_textI hsz _ _ _ _ (pdfInv_new_page n s h)
  · simp only [hc, if_false]
    exact pdfInv_textI hsz _ _ _ _ h

lemma pdfInv_plainFold (n s : List Char) (xp : ℚ) {szq : ℚ}
    (hsz : Instr.tf "F1" szq ≠ labelTf) :
    ∀ (l : List (List Char)) (st : StyledPdf × ℚ), PdfInv st.1 →
      PdfInv ((l.foldl (renderPart n s xp szq) st).1) := by
  intro l
  induction l with
  | nil => intro st h; exact h
  | cons v l ih =>
    intro st h
    exact ih _ (pdfInv_renderPart n s xp hsz st v h)

lemma pdfInv_bulletFold (n s : List Char) (xp : ℚ) {szq : ℚ}
    (hsz : Instr.tf "F1" szq ≠ labelTf) :
    ∀ (l : List (ℕ × List Char)) (st : StyledPdf × ℚ), PdfInv st.1 →
      PdfInv ((l.foldl (fun acc ip =>
        renderPart n s xp szq acc
          ((if ip.1 = 0 then chs "- " else chs "  ") ++ ip.2)) st).1) := by
  intro l
  induction l with
  | nil => intro st h; exact h
  | cons v l ih =>
    intro st h
    exact ih _ (pdfInv_renderPart n s xp hsz st _ h)

lemma pdfInv_bodyLine (n s : List Char) (raw : List Char) {st : LayoutState}
    (h : PdfInv st.pdf) : PdfInv (bodyLine n s st raw).pdf := by
  unfold bodyLine
  by_cases h1 : pyStrip raw = []
  · simp only [h1, if_true, if_pos]
    unfold blankStep
    by_cases h2 : st.y - 7 < bottom_limit
    · simp only [h2, if_true]
      exact pdfInv_new_page n s h
    · simp only [h2, if_false]
      exact h
  · rw [if_neg h1]
    by_cases h2 : isHeadingLine (pyStrip raw) = true
    · rw [if_pos h2]
      unfold headingStep
      by_cases h3 : st.y - 6 < bottom_limit + 16
      · simp only [h3, if_true]
        exact pdfInv_textI (tfF2_ne_label 11) _ _ _ _ (pdfInv_new_page n s h)
      · simp only [h3, if_false]
        exact pdfInv_textI (tfF2_ne_label 11) _ _ _ _ h
    · rw [if_neg h2]
      by_cases h3 : isBulletLine (pyStrip raw) = true
      · rw [if_pos h3]
        unfold bulletStep
        exact pdfInv_bulletFold n s (x_text + 8) (tfF1_ne_label (by norm_num)) _ _ h
      · rw [if_neg h3]
        unfold plainStep
        exact pdfInv_plainFold n s x_text (tfF1_ne_label (by norm_num)) _ _ h

lemma pdfInv_bodyFold (n s : List Char) :
    ∀ (lines : List (List Char)) (st : LayoutState), PdfInv st.pdf →
      PdfInv ((lines.foldl (bodyLine n s) st).pdf) := by
  intro lines
  induction lines with
  | nil => intro st h; exact h
  | cons raw lines ih =>
    intro st h
    exact ih _ (pdfInv_bodyLine n s raw h)

lemma pdfInv_init (n s : List Char) : PdfInv (initLayout n s).pdf := by
  show PdfInv (layoutPrelude n s)
  unfold layoutPrelude
  have h1 : PdfInv (begin_page initPdf n s true) := by
    rw [begin_page_true_eq]
    refine ⟨rfl, ?_, ?_, ?_⟩
    · intro k hk
      simp [initPdf] at hk
    · show labelCount (decorSeg
        ++ rectInstrs 36 (842 - 36 - 86 : ℚ) 523 86 (some panelCol) (some borderCol) 1.1
        ++ textInstrs (36 + 16) ((842 - 36 - 86 : ℚ) + 86 - 32) n 24 "F2" (some accentCol)
        ++ textInstrs (36 + 16) ((842 - 36 - 86 : ℚ) + 86 - 52) s 11 "F1" (some textCol))
        = (if initPdf.page_no + 1 = 1 then 0 else 1)
      rw [labelCount_append, labelCount_append, labelCount_append,
        labelCount_decorSeg, labelCount_rectInstrs,
        labelCount_textInstrs_ne _ _ _ _ (tfF2_ne_label 24),
        labelCount_textInstrs_ne _ _ _ _ (tfF1_ne_label (by norm_num))]
      rfl
    · intro h2
      have h2' : (2 : ℕ) ≤ initPdf.page_no + 1 := h2
      exact absurd h2' (by simp [initPdf])
  have h2 := pdfInv_textI
    (tfF1_ne_label (by norm_num) : Instr.tf "F1" (9.2 : ℚ) ≠ labelTf)
    (36 + 16) (842 - 118) contact_line (some mutedCol) h1
  show PdfInv (metricsRow
    (textI (begin_page initPdf n s true) (36 + 16) (842 - 118) contact_line 9.2 "F1"
      (some mutedCol)))
  exact pdfInv_emits emits_metricsRow (by with_unfolding_all decide) h2

/-- C7 : beyond the first page, every page `k` (0-based) carries exactly one
page-number label and it reads `Page (k+1)`; the first page carries none. -/
theorem page_number_labels (n s : List Char) (lines : List (List Char)) :
    1 < (generateDoc n s lines).page_streams.length →
    ∀ k, k < (generateDoc n s lines).page_streams.length →
      labelCount ((generateDoc n s lines).page_streams.getD k [])
        = (if k = 0 then 0 else 1) ∧
      (1 ≤ k → ∃ pre post, (generateDoc n s lines).page_streams.getD k []
        = pre ++ pageLabelBlock (k + 1) ++ post) := by
  intro _ k hk
  have hinv := pdfInv_bodyFold n s lines (initLayout n s) (pdfInv_init n s)
  have hp := pageInv_snoc hinv
  have hgen : (generateDoc n s lines).page_streams
      = (lines.foldl (bodyLine n s) (initLayout n s)).pdf.page_streams
        ++ [(lines.foldl (bodyLine n s) (initLayout n s)).pdf.current_stream] := rfl
  rw [hgen] at hk ⊢
  exact hp k (by simpa using hk)

/-! ### Heading vertical-position invariant -/

lemma headingYs_blankStep (n s : List Char) (st : LayoutState) :
    (blankStep n s st).headingYs = st.headingYs := by
  unfold blankStep
  split <;> rfl

lemma headingYs_bulletStep (n s : List Char) (st : LayoutState) (line : List Char) :
    (bulletStep n s st line).headingYs = st.headingYs := rfl

lemma headingYs_plainStep (n s : List Char) (st : LayoutState) (line : List Char) :
    (plainStep n s st line).headingYs = st.headingYs := rfl

lemma headingYs_headingStep (n s : List Char) (st : LayoutState) (line : List Char) :
    (headingStep n s st line).headingYs
      = st.headingYs
        ++ [if st.y - 6 < bottom_limit + 16 then (new_page n s st.pdf).2 else st.y - 6] := rfl

lemma headingYs_bodyLine_inv (n s raw : List Char) (st : LayoutState)
    (h : ∀ yv ∈ st.headingYs, bottom_limit + 16 ≤ yv) :
    ∀ yv ∈ (bodyLine n s st raw).headingYs, bottom_limit + 16 ≤ yv := by
  unfold bodyLine
  by_cases h1 : pyStrip raw = []
  · rw [if_pos h1, headingYs_blankStep]
    exact h
  · rw [if_neg h1]
    by_cases h2 : isHeadingLine (pyStrip raw) = true
    · rw [if_pos h2]
      intro yv hyv
      rw [headingYs_headingStep] at hyv
      rcases List.mem_append.mp hyv with hm | hm
      · exact h yv hm
      · rw [List.mem_singleton] at hm
        subst hm
        by_cases h3 : st.y - 6 < bottom_limit + 16
      <;> simp only [h3, if_true, if_false]
        · show bottom_limit + 16 ≤ (842 - 112 : ℚ)
          with_unfolding_all decide
        · exact le_of_not_lt h3
    · rw [if_neg h2]
      by_cases h3 : isBulletLine (pyStrip raw) = true
      · rw [if_pos h3, headingYs_bulletStep]
        exact h
      · rw [if_neg h3, headingYs_plainStep]
        exact h

lemma headingYs_fold_inv (n s : List Char) :
    ∀ (lines : List (List Char)) (st : LayoutState),
      (∀ yv ∈ st.headingYs, bottom_limit + 16 ≤ yv) →
      ∀ yv ∈ (lines.foldl (bodyLine n s) st).headingYs, bottom_limit + 16 ≤ yv := by
  intro lines
  induction lines with
  | nil => intro st h; exact h
  | cons raw lines ih =>
    intro st h
    exact ih _ (headingYs_bodyLine_inv n s raw st h)

/-- C6 : every heading is rendered with its baseline at least 16pt above the
bottom margin `bottom_limit = 56` — the ghost trace `headingYs` records the
exact `y` at which `headingStep` renders each heading (after the initial
6pt drop and the conditional page break). -/
theorem heading_never_near_bottom (n s : List Char) (lines : List (List Char)) :
    ∀ yv ∈ (lines.foldl (bodyLine n s) (initLayout n s)).headingYs,
      bottom_limit + 16 ≤ yv := by
  refine headingYs_fold_inv n s lines (initLayout n s) ?_
  intro yv hyv
  exact absurd hyv (by simp [initLayout])

set_option maxRecDepth 100000 in
/-- Witness for C6: a single `Experience` heading renders at `y = 602`,
comfortably above `bottom_limit + 16 = 72`. -/
theorem heading_never_near_bottom_witness :
    ((608 : ℚ) - 6) ∈ ([chs "Experience"].foldl (bodyLine [] [])
      (initLayout [] [])).headingYs ∧
    bottom_limit + 16 ≤ (608 : ℚ) - 6 := by
  have hm : ((608 : ℚ) - 6) ∈ ([chs "Experience"].foldl (bodyLine [] [])
      (initLayout [] [])).headingYs := by
    with_unfolding_all decide
  exact ⟨hm, heading_never_near_bottom [] [] [chs "Experience"] _ hm⟩

set_option maxRecDepth 100000 in
/-- Witness for C7: 29 consecutive heading lines overflow onto a second
page, which carries exactly one label and it is the `Page 2` block. -/
theorem page_number_labels_witness :
    (1 < (generateDoc [] [] (List.replicate 29 (chs "Experience"))).page_streams.length) ∧
    labelCount ((generateDoc [] [] (List.replicate 29 (chs "Experience"))).page_streams.getD
      1 []) = 1 ∧
    (∃ pre post, (generateDoc [] [] (List.replicate 29 (chs "Experience"))).page_streams.getD
      1 [] = pre ++ pageLabelBlock 2 ++ post) := by
  have h1 : 1 < (generateDoc [] [] (List.replicate 29 (chs "Experience"))).page_streams.length := by
    with_unfolding_all decide
  have h := page_number_labels [] [] (List.replicate 29 (chs "Experience")) h1 1 h1
  exact ⟨h1, by simpa using h.1, by simpa using h.2 (le_refl 1)⟩

/-! ### Page existence and the empty-input page -/

lemma emits_eq (f : StyledPdf → StyledPdf) (hf : Emits f) (p : StyledPdf) :
    f p = ⟨p.page_streams, p.current_stream ++ (f initPdf).current_stream, p.page_no⟩ := by
  obtain ⟨e1, e2, e3⟩ := hf p
  rcases hfp : f p with ⟨A, B, C⟩
  rw [hfp] at e1 e2 e3
  simp only [show (⟨A, B, C⟩ : StyledPdf).page_no = C from rfl,
    show (⟨A, B, C⟩ : StyledPdf).page_streams = A from rfl,
    show (⟨A, B, C⟩ : StyledPdf).current_stream = B from rfl] at e1 e2 e3
  subst e1
  subst e2
  subst e3
  rfl

/-- The instruction segment of the metrics row (container panel and four
metric cards), as drawn from an empty stream. -/
def metricsSeg : List Instr := (metricsRow initPdf).current_stream

/-- Everything the first page holds for an input with no body lines:
decorative background, first-page header panel with name and subtitle,
contact line, metrics row. -/
def preludeStream (n s : List Char) : List Instr :=
  decorSeg
  ++ rectInstrs 36 (842 - 36 - 86 : ℚ) 523 86 (some panelCol) (some borderCol) 1.1
  ++ textInstrs (36 + 16) ((842 - 36 - 86 : ℚ) + 86 - 32) n 24 "F2" (some accentCol)
  ++ textInstrs (36 + 16) ((842 - 36 - 86 : ℚ) + 86 - 52) s 11 "F1" (some textCol)
  ++ textInstrs (36 + 16) (842 - 118) contact_line 9.2 "F1" (some mutedCol)
  ++ metricsSeg

lemma layoutPrelude_eq (n s : List Char) :
    layoutPrelude n s = ⟨[], preludeStream n s, 1⟩ := by
  unfold layoutPrelude
  rw [begin_page_true_eq, emits_eq metricsRow emits_metricsRow]
  simp [textI, initPdf, metricsSeg, preludeStream, List.append_assoc]

/-- C8 : every run produces at least one finalized page, and an empty body
produces exactly one page holding precisely the decorative background,
header panel, contact line and metrics row — no body text. -/
theorem pages_nonempty_and_empty_input (n s : List Char) (lines : List (List Char)) :
    1 ≤ (generateDoc n s lines).page_streams.length ∧
    (generateDoc n s []).page_streams = [preludeStream n s] ∧
    (generateDoc n s []).page_streams.length = 1 := by
  have h2 : (generateDoc n s []).page_streams = [preludeStream n s] := by
    show ((initLayout n s).pdf.page_streams ++ [(initLayout n s).pdf.current_stream])
      = [preludeStream n s]
    rw [show (initLayout n s).pdf = layoutPrelude n s from rfl, layoutPrelude_eq]
    rfl
  refine ⟨?_, h2, by rw [h2]; rfl⟩
  show 1 ≤ ((lines.foldl (bodyLine n s) (initLayout n s)).pdf.page_streams
    ++ [(lines.foldl (bodyLine n s) (initLayout n s)).pdf.current_stream]).length
  simp

/-! ### Relational semantics of the body loop and determinism -/

/-- One iteration of `for raw_line in lines` as a relation, mirroring the
source's `if`/`elif` chain (each later branch carries the negations of the
earlier guards, as Python's `elif` does). -/
inductive LineRel (n s : List Char) (st : LayoutState) (raw : List Char) :
    LayoutState → Prop
  | blank : pyStrip raw = [] → LineRel n s st raw (blankStep n s st)
  | heading : pyStrip raw ≠ [] → isHeadingLine (pyStrip raw) = true →
      LineRel n s st raw (headingStep n s st (pyStrip raw))
  | bullet : pyStrip raw ≠ [] → isHeadingLine (pyStrip raw) = false →
      isBulletLine (pyStrip raw) = true →
      LineRel n s st raw (bulletStep n s st (pyStrip raw))
  | plain : pyStrip raw ≠ [] → isHeadingLine (pyStrip raw) = false →
      isBulletLine (pyStrip raw) = false →
      LineRel n s st raw (plainStep n s st (pyStrip raw))

/-- The whole body loop as a relation: chained `LineRel` steps. -/
inductive BodyRel (n s : List Char) :
    LayoutState → List (List Char) → LayoutState → Prop
  | nil (st : LayoutState) : BodyRel n s st [] st
  | cons {st st1 st2 : LayoutState} {raw : List Char} {lines : List (List Char)} :
      LineRel n s st raw st1 → BodyRel n s st1 lines st2 →
      BodyRel n s st (raw :: lines) st2

/-- A complete run of the layout pipeline: the body loop from the prelude
state, then `finish_page`. -/
def GenerateRel (n s : List Char) (lines : List (List Char)) (doc : StyledPdf) : Prop :=
  ∃ fin, BodyRel n s (initLayout n s) lines fin ∧ doc = finish_page fin.pdf

lemma lineRel_det {n s : List Char} {st : LayoutState} {raw : List Char}
    {st1 st2 : LayoutState} (h1 : LineRel n s st raw st1) (h2 : LineRel n s st raw st2) :
    st1 = st2 := by
  cases h1 <;> cases h2 <;> simp_all

lemma bodyRel_det {n s : List Char} :
    ∀ {st : LayoutState} {lines : List (List Char)} {st1 st2 : LayoutState},
      BodyRel n s st lines st1 → BodyRel n s st lines st2 → st1 = st2 := by
  intro st lines st1 st2 h1
  induction h1 with
  | nil st =>
    intro h2
    cases h2
    rfl
  | cons hl hb ih =>
    intro h2
    cases h2 with
    | cons hl2 hb2 =>
      have hm := lineRel_det hl hl2
      subst hm
      exact ih hb2

/-- `bodyLine` realizes `LineRel`: the executable fold is a run of the
relational semantics. -/
lemma lineRel_bodyLine (n s : List Char) (st : LayoutState) (raw : List Char) :
    LineRel n s st raw (bodyLine n s st raw) := by
  unfold bodyLine
  by_cases h1 : pyStrip raw = []
  · rw [if_pos h1]
    exact LineRel.blank h1
  · rw [if_neg h1]
    by_cases h2 : isHeadingLine (pyStrip raw) = true
    · rw [if_pos h2]
      exact LineRel.heading h1 h2
    · rw [if_neg h2]
      by_cases h3 : isBulletLine (pyStrip raw) = true
      · rw [if_pos h3]
        exact LineRel.bullet h1 (by simpa using h2) h3
      · rw [if_neg h3]
        exact LineRel.plain h1 (by simpa using h2) (by simpa using h3)

lemma bodyRel_foldl (n s : List Char) :
    ∀ (lines : List (List Char)) (st : LayoutState),
      BodyRel n s st lines (lines.foldl (bodyLine n s) st) := by
  intro lines
  induction lines with
  | nil => intro st; exact BodyRel.nil st
  | cons raw lines ih =>
    intro st
    exact BodyRel.cons (lineRel_bodyLine n s st raw) (ih (bodyLine n s st raw))

/-- C9 : layout is deterministic — any two runs of the layout relation on
the same name, subtitle and body lines produce the same document: equal as
values, with equal page counts and byte-identical rendered page streams. -/
theorem layout_deterministic (n s : List Char) (lines : List (List Char))
    (d₁ d₂ : StyledPdf) (h₁ : GenerateRel n s lines d₁) (h₂ : GenerateRel n s lines d₂) :
    d₁ = d₂ ∧ d₁.page_streams.length = d₂.page_streams.length ∧
    d₁.page_streams.map renderStream = d₂.page_streams.map renderStream := by
  obtain ⟨f1, hb1, hd1⟩ := h₁
  obtain ⟨f2, hb2, hd2⟩ := h₂
  have hf := bodyRel_det hb1 hb2
  subst hf
  rw [hd1, hd2]
  exact ⟨rfl, rfl, rfl⟩

/-- Witness for C9: a concrete run (one blank body line) realizes the
relation, and the theorem applies to two copies of that run. -/
theorem layout_deterministic_witness :
    GenerateRel [] [] [[]] (generateDoc [] [] [[]]) ∧
    generateDoc [] [] [[]] = generateDoc [] [] [[]] := by
  have hr : GenerateRel [] [] [[]] (generateDoc [] [] [[]]) :=
    ⟨blankStep [] [] (initLayout [] []),
     BodyRel.cons (LineRel.blank rfl) (BodyRel.nil _), rfl⟩
  exact ⟨hr, (layout_deterministic [] [] [[]] _ _ hr hr).1⟩

/-! ### `load_cv_lines`: defaults and the body lines -/

lemma dropNB_zero : ∀ lines : List (List Char), dropNB 0 lines = lines := by
  intro lines
  induction lines with
  | nil => rfl
  | cons ln t ih =>
    unfold dropNB
    by_cases hb : pyStrip ln ≠ []
    · rw [if_pos hb, if_neg (lt_irrefl 0), ih]
    · rw [if_neg hb, ih]

lemma skipBody_ge_two : ∀ (lines : List (List Char)) (s : ℕ), 2 ≤ s →
    skipBody s lines = lines.map pyRstrip := by
  intro lines
  induction lines with
  | nil => intro s _; rfl
  | cons ln t ih =>
    intro s hs
    unfold skipBody
    by_cases hb : pyStrip ln ≠ []
    · rw [if_pos hb, if_neg (by omega : ¬ s + 1 ≤ 2), ih (s + 1) (by omega)]
      rfl
    · rw [if_neg hb, ih s hs]
      rfl

lemma skipBody_spec : ∀ (lines : List (List Char)) (s : ℕ), s ≤ 2 →
    skipBody s lines = (dropNB (2 - s) lines).map pyRstrip := by
  intro lines
  induction lines with
  | nil => intro s _; rfl
  | cons ln t ih =>
    intro s hs
    unfold skipBody dropNB
    by_cases hb : pyStrip ln ≠ []
    · rw [if_pos hb, if_pos hb]
      by_cases h1 : s + 1 ≤ 2
      · rw [if_pos h1, if_pos (by omega : 0 < 2 - s), ih (s + 1) h1]
        congr 2
      · have hs2 : s = 2 := by omega
        subst hs2
        rw [if_neg h1, if_neg (by omega : ¬ 0 < 2 - 2), dropNB_zero,
          skipBody_ge_two t 3 (by omega)]
        rfl
    · rw [if_neg hb, if_neg hb, ih s hs]
      rfl

/-- C10 : `load_cv_lines` defaults — with no non-blank line the name and
subtitle are the fixed defaults; with exactly one non-blank line that
(stripped) line is the name and the subtitle defaults; and on every input
the body equals the original lines with the first two non-blank lines
removed and the rest right-stripped in order (the spec-modelled
`specBody`). -/
theorem load_cv_lines_defaults_and_body (lines : List (List Char)) :
    ((lines.map pyStrip).filter (· ≠ []) = [] →
      (load_cv_lines lines).1 = chs "Iro Karavasili" ∧
      (load_cv_lines lines).2.1
        = chs "Atlassian Engineer - Service Delivery - Process Design") ∧
    (∀ x, (lines.map pyStrip).filter (· ≠ []) = [x] →
      (load_cv_lines lines).1 = x ∧
      (load_cv_lines lines).2.1
        = chs "Atlassian Engineer - Service Delivery - Process Design") ∧
    (load_cv_lines lines).2.2 = specBody lines := by
  refine ⟨?_, ?_, ?_⟩
  · intro h
    constructor
    · show (match (lines.map pyStrip).filter (· ≠ []) with
        | n :: _ => n
        | [] => chs "Iro Karavasili") = chs "Iro Karavasili"
      rw [h]
    · show (match (lines.map pyStrip).filter (· ≠ []) with
        | _ :: s :: _ => s
        | _ => chs "Atlassian Engineer - Service Delivery - Process Design") = _
      rw [h]
  · intro x h
    constructor
    · show (match (lines.map pyStrip).filter (· ≠ []) with
        | n :: _ => n
        | [] => chs "Iro Karavasili") = x
      rw [h]
    · show (match (lines.map pyStrip).filter (· ≠ []) with
        | _ :: s :: _ => s
        | _ => chs "Atlassian Engineer - Service Delivery - Process Design") = _
      rw [h]
  · show skipBody 0 lines = specBody lines
    exact skipBody_spec lines 0 (by omega)

/-- Witness for C10: an all-blank input takes the default name; a
one-non-blank-line input takes that line (stripped) as the name with the
default subtitle. -/
theorem load_cv_lines_defaults_and_body_witness :
    (([chs "   ", chs ""].map pyStrip).filter (· ≠ []) = [] ∧
     (load_cv_lines [chs "   ", chs ""]).1 = chs "Iro Karavasili") ∧
    (([chs "  Iro ", chs ""].map pyStrip).filter (· ≠ []) = [chs "Iro"] ∧
     (load_cv_lines [chs "  Iro ", chs ""]).1 = chs "Iro" ∧
     (load_cv_lines [chs "  Iro ", chs ""]).2.1
       = chs "Atlassian Engineer - Service Delivery - Process Design") := by
  have h1 : ([chs "   ", chs ""].map pyStrip).filter (· ≠ []) = [] := by decide
  have h2 : ([chs "  Iro ", chs ""].map pyStrip).filter (· ≠ []) = [chs "Iro"] := by
    decide
  refine ⟨⟨h1, ((load_cv_lines_defaults_and_body [chs "   ", chs ""]).1 h1).1⟩,
    h2, ((load_cv_lines_defaults_and_body
      [chs "  Iro ", chs ""]).2.1 (chs "Iro") h2).1,
    ((load_cv_lines_defaults_and_body
      [chs "  Iro ", chs ""]).2.1 (chs "Iro") h2).2⟩

end CvPdf
